import Mathlib

/-!
Verification development for the Mindmap-text repository.

The repository is a TypeScript mind-map / mandala-chart editor.  This file
gives a shallow embedding of its tree data model and of the operations the
claims are about, translated from the TypeScript source:

* `src/types.ts` — the `MindMapNode` / mandala data types;
* `src/components/MindMap/useMindMapData.ts` (and the variant in
  `src/unnamed/part_005`) — `findNodePath`, `addSibling`, `addChild`,
  `removeNodes`, `insertParent`;
* `src/utils/import.ts` — `parseMindMap`;
* `src/unnamed/part_001` (`src/utils/export.ts`) — `exportMindMap`;
* `src/components/MindMap/MindMapCanvas.tsx` — the Ctrl/Cmd+Backspace
  branch of `handleKeyDown`;
* `src/unnamed/part_003` (`useMandalaData`) — `updateCell`.

JavaScript strings are modelled as `List Char`; `uuidv4()` is modelled by
passing fresh identifiers in from the outside (a single `newId` argument
for operations that create one node, a counter for the parser).  Mutation
of a deep clone through aliased nodes (the `findNodePath` pattern in the
source) is rendered as a functional update along the child-index path of
the located node.
-/

/-- `MindMapNode` from `src/types.ts`:
`{ id: string; text: string; children: MindMapNode[]; isExpanded?: boolean }`.
`text` is a JS string, modelled as `List Char`. -/
inductive MMNode : Type where
  | mk : String → List Char → List MMNode → Option Bool → MMNode

def MMNode.id : MMNode → String
  | .mk i _ _ _ => i

def MMNode.text : MMNode → List Char
  | .mk _ t _ _ => t

def MMNode.children : MMNode → List MMNode
  | .mk _ _ cs _ => cs

def MMNode.isExpanded : MMNode → Option Bool
  | .mk _ _ _ e => e

/-- The shape of a node: its text and the shapes of its children, in order,
ignoring `id` and `isExpanded`.  Two trees are "structurally equal" (same
shape, same texts, same child order) iff their shapes are equal. -/
inductive MMShape : Type where
  | mk : List Char → List MMShape → MMShape

mutual
/-- Shape (text + child order) of a node, forgetting ids and expansion flags. -/
def MMNode.shape : MMNode → MMShape
  | .mk _ t cs _ => .mk t (shapeList cs)

def shapeList : List MMNode → List MMShape
  | [] => []
  | c :: cs => c.shape :: shapeList cs
end

mutual
/-- Number of nodes in a (sub)tree. -/
def MMNode.size : MMNode → Nat
  | .mk _ _ cs _ => 1 + sizeList cs

def sizeList : List MMNode → Nat
  | [] => 0
  | c :: cs => c.size + sizeList cs
end

mutual
/-- Does some node of the tree carry this id? -/
def containsId (target : String) : MMNode → Bool
  | .mk i _ cs _ => i = target || containsIdList target cs

def containsIdList (target : String) : List MMNode → Bool
  | [] => false
  | c :: cs => containsId target c || containsIdList target cs
end

-- ==================================================================
-- removeNodes  (useMindMapData.ts lines 70–94 / part_005 lines 88–113)
-- ==================================================================

mutual
/-- The recursion inside `removeNodes`:
`node.children = node.children.filter(child => !idsSet.has(child.id));
 node.children.forEach(removeRecursive);`
(the filter and the subsequent traversal of the kept children are fused
into one pass; the filter predicate does not depend on the recursion, so
the result is the same list). -/
def removeRecursive (ids : List String) : MMNode → MMNode
  | .mk i t cs e => .mk i t (removeRecursiveList ids cs) e

def removeRecursiveList (ids : List String) : List MMNode → List MMNode
  | [] => []
  | c :: cs =>
    if ids.contains c.id then removeRecursiveList ids cs
    else removeRecursive ids c :: removeRecursiveList ids cs
end

/-- `removeNodes(ids)` from `useMindMapData.ts`: deep-clone the tree, and
`if (idsSet.has(clone.id)) return clone;` — when the root id is listed the
whole operation returns the clone untouched; otherwise filter every node's
children recursively.  The deep clone is the identity in a functional
setting. -/
def removeNodes (root : MMNode) (ids : List String) : MMNode :=
  if ids.contains root.id then root
  else removeRecursive ids root

-- ==================================================================
-- Mandala model and updateCell  (part_003 lines 509–552)
-- ==================================================================

/-- `MandalaCell` from `src/types.ts`. -/
structure MandalaCell where
  id : String
  text : String
deriving DecidableEq

/-- `MandalaGridData` from `src/types.ts`; the source stores `cells` as a
9-element array, modelled as a function from `Fin 9`. -/
structure MandalaGridData where
  id : String
  title : String
  cells : Fin 9 → MandalaCell

/-- `MandalaChartData` from `src/types.ts`. -/
structure MandalaChartData where
  centerGrid : MandalaGridData
  surroundingGrids : Fin 9 → MandalaGridData

/-- The `gridType: 'center' | 'surrounding'` argument of `updateCell`. -/
inductive GridType : Type where
  | center
  | surrounding
deriving DecidableEq

/-- `newCells[cellIndex] = { ...newCells[cellIndex], text: newText }` on a
copy of the cell array. -/
def setCellText (cs : Fin 9 → MandalaCell) (i : Fin 9) (t : String) :
    Fin 9 → MandalaCell :=
  fun k => if k = i then { cs i with text := t } else cs k

/-- `newSurrounding[gridIndex] = grid` on a copy of the grid array. -/
def setGrid (gs : Fin 9 → MandalaGridData) (i : Fin 9) (g : MandalaGridData) :
    Fin 9 → MandalaGridData :=
  fun k => if k = i then g else gs k

/-- `updateCell` from `useMandalaData` (part_003 lines 509–552).  The source
receives in-range indices (0–8) from the grid UI; they are modelled as
`Fin 9`.  For `gridType === 'center'` the `gridIndex` argument is unused,
exactly as in the source. -/
def updateCell (prev : MandalaChartData) (gridType : GridType)
    (gridIndex cellIndex : Fin 9) (newText : String) : MandalaChartData :=
  match gridType with
  | .center =>
    let cg := { prev.centerGrid with
                cells := setCellText prev.centerGrid.cells cellIndex newText }
    if cellIndex ≠ (4 : Fin 9) then
      let sg := prev.surroundingGrids cellIndex
      let sg' := { sg with cells := setCellText sg.cells 4 newText }
      { centerGrid := cg,
        surroundingGrids := setGrid prev.surroundingGrids cellIndex sg' }
    else
      { prev with centerGrid := cg }
  | .surrounding =>
    let sg := prev.surroundingGrids gridIndex
    let sg' := { sg with cells := setCellText sg.cells cellIndex newText }
    let sgs := setGrid prev.surroundingGrids gridIndex sg'
    if cellIndex = (4 : Fin 9) then
      { centerGrid := { prev.centerGrid with
                        cells := setCellText prev.centerGrid.cells gridIndex newText },
        surroundingGrids := sgs }
    else
      { centerGrid := prev.centerGrid, surroundingGrids := sgs }

-- ==================================================================
-- findNodePath and the path-based mutations
-- (useMindMapData.ts lines 18–68, part_005 lines 33–86)
-- ==================================================================

mutual
/-- `findNodePath` (useMindMapData.ts lines 18–25).  The source returns the
list of nodes from the root to the first depth-first occurrence of
`targetId` and later code mutates those nodes through aliasing; we return
the equivalent child-index path locating that occurrence (`none` when the
id is absent).  The source path has length `index path length + 1`. -/
def findIdxPath (targetId : String) : MMNode → Option (List Nat)
  | .mk i _ cs _ =>
    if i = targetId then some [] else findIdxPathList targetId cs 0

def findIdxPathList (targetId : String) : List MMNode → Nat → Option (List Nat)
  | [], _ => none
  | c :: cs, k =>
    match findIdxPath targetId c with
    | some p => some (k :: p)
    | none => findIdxPathList targetId cs (k + 1)
end

/-- Replace the `k`-th element of a child list by `g` of it (the functional
rendering of mutating an aliased array slot). -/
def updateChildAt : List MMNode → Nat → (MMNode → MMNode) → List MMNode
  | [], _, _ => []
  | c :: cs, 0, g => g c :: cs
  | c :: cs, Nat.succ k, g => c :: updateChildAt cs k g

/-- Apply `g` to the node at child-index path `p` (the functional rendering
of mutating the aliased node found by `findNodePath`). -/
def updateAt : MMNode → List Nat → (MMNode → MMNode) → MMNode
  | n, [], g => g n
  | .mk i t cs e, k :: p, g => .mk i t (updateChildAt cs k (fun c => updateAt c p g)) e

/-- The node at child-index path `p`, if the path is valid. -/
def getAt : MMNode → List Nat → Option MMNode
  | n, [] => some n
  | n, k :: p =>
    match n.children[k]? with
    | some c => getAt c p
    | none => none

/-- `Array.prototype.findIndex`: index of the first element satisfying `p`,
`-1` when there is none. -/
def jsFindIndex {α : Type} (p : α → Bool) : List α → Int
  | [] => -1
  | c :: cs =>
    if p c then 0
    else
      let r := jsFindIndex p cs
      if r = -1 then -1 else r + 1

/-- `l.splice(start, 0, x)` for the non-negative `start` values the source
produces (`findIndex(...) + 1 ≥ 0`): JS clamps `start` to the array length
and inserts `x` there. -/
def jsSpliceInsert {α : Type} (l : List α) (start : Int) (x : α) : List α :=
  let s := (min (max start 0) (l.length : Int)).toNat
  l.take s ++ x :: l.drop s

/-- The node created by `addSibling`:
`{ id: uuidv4(), text: 'New Node', children: [] }` (no `isExpanded`). -/
def newSiblingNode (newId : String) : MMNode := .mk newId "New Node".data [] none

/-- The mutation applied to the aliased parent node in `addSibling`:
`const index = parent.children.findIndex(n => n.id === referenceId);
 parent.children.splice(index + 1, 0, newNode);` -/
def spliceSiblingAt (referenceId newId : String) : MMNode → MMNode
  | .mk i t cs e =>
    .mk i t
      (jsSpliceInsert cs
        (jsFindIndex (fun n => n.id = referenceId) cs + 1)
        (newSiblingNode newId)) e

/-- `addSibling` (useMindMapData.ts lines 39–53): no-op when `referenceId`
is the root id; otherwise find the path of `referenceId`, and when the path
has at least two nodes splice a new node into the parent's children right
after the first child whose id is `referenceId`. -/
def addSibling (root : MMNode) (referenceId : String) (newId : String) : MMNode :=
  if referenceId = root.id then root
  else
    match findIdxPath referenceId root with
    | none => root
    | some p =>
      match p with
      | [] => root  -- `path.length >= 2` fails; cannot occur when referenceId ≠ root.id
      | _ :: _ =>
        updateAt root p.dropLast (spliceSiblingAt referenceId newId)

/-- The node created by `addChild`:
`{ id: uuidv4(), text: 'New Child', children: [] }`. -/
def newChildNode (newId : String) : MMNode := .mk newId "New Child".data [] none

/-- The mutation applied to the aliased target node in `addChild`:
`target.children.push(newNode); target.isExpanded = true;` -/
def pushChildAt (newId : String) : MMNode → MMNode
  | .mk i t cs _ => .mk i t (cs ++ [newChildNode newId]) (some true)

/-- `addChild` (useMindMapData.ts lines 55–68): find the path of
`parentId`; when found, push a new child at the end of the target's
children and set `isExpanded = true`; otherwise return the (cloned) tree
unchanged. -/
def addChild (root : MMNode) (parentId : String) (newId : String) : MMNode :=
  match findIdxPath parentId root with
  | none => root
  | some p => updateAt root p (pushChildAt newId)

-- ==================================================================
-- insertParent  (part_005 lines 120–215)
-- ==================================================================

/-- The second pass of `insertParent` (part_005 lines 192–207): walk a
child list; a child whose id is targeted is skipped (it goes to
`newParentChildren`), and at the first such child the new parent node is
inserted instead.  In the source the loop pushes the mutable `newParent`
object and its `children` field is assigned after the loop; functionally we
insert the finished node. -/
def insertParentPass (targetIds : List String) (finalParent : MMNode) :
    List MMNode → Bool → List MMNode
  | [], _ => []
  | c :: cs, inserted =>
    if targetIds.contains c.id then
      if inserted then insertParentPass targetIds finalParent cs true
      else finalParent :: insertParentPass targetIds finalParent cs true
    else c :: insertParentPass targetIds finalParent cs inserted

/-- `insertParent` from part_005 lines 120–215.  Guards: root targeted →
no-op; `targetIds[0]` not found or its path shorter than 2 → no-op; no
target is a direct child of the common parent → no-op.  Then two passes
run over the common parent's children:

* lines 158–166 destructively filter `commonParent.children`, collecting
  the targeted children into `movingNodes` and assigning
  `newParent.children = movingNodes`;
* lines 192–210 rebuild from `const originalChildren =
  [...commonParent.children]` — which at that point is the ALREADY
  FILTERED array — and finally overwrite `newParent.children` with
  whatever the second pass collected and `commonParent.children` with the
  rebuilt list.

The embedding keeps both passes: `filtered` is the state after the first
pass, and the second pass runs over it (`movingNodes` never reaches the
result because line 209 overwrites it). -/
def insertParent (root : MMNode) (targetIds : List String) (text : List Char)
    (newId : String) : MMNode :=
  if targetIds.contains root.id then root
  else
    match targetIds.head? with
    | none => root  -- `targetIds[0]` is `undefined`; `findNodePath` finds nothing
    | some firstTargetId =>
      match findIdxPath firstTargetId root with
      | none => root
      | some p =>
        match p with
        | [] => root  -- `path.length < 2`
        | _ :: _ =>
          match getAt root p.dropLast with
          | none => root  -- unreachable: `p` comes from `findIdxPath`
          | some commonParent =>
            let validTargets := targetIds.filter
              (fun i => commonParent.children.any (fun c => c.id = i))
            if validTargets.isEmpty then root
            else
              let filtered := commonParent.children.filter
                (fun c => !targetIds.contains c.id)
              let newParentChildren := filtered.filter
                (fun c => targetIds.contains c.id)
              let newParent : MMNode := .mk newId text newParentChildren (some true)
              let newChildren := insertParentPass targetIds newParent filtered false
              updateAt root p.dropLast (fun cp =>
                match cp with
                | .mk i t _ e => .mk i t newChildren e)

-- ==================================================================
-- exportMindMap  (part_001 / src/utils/export.ts lines 3–8)
-- ==================================================================

/-- `'  '.repeat(depth)`. -/
def indentChars (depth : Nat) : List Char := List.replicate (2 * depth) ' '

mutual
/-- `exportMindMap` (export.ts lines 3–8): one line `indent + "- " + text`
per node, children exported at `depth + 1` and joined with `'\n'`; the
children block is appended only when it is a non-empty (truthy) string. -/
def exportMindMap (n : MMNode) (depth : Nat) : List Char :=
  match n with
  | .mk _ t cs _ =>
    let line := indentChars depth ++ ('-' :: ' ' :: t)
    let childrenLines := exportChildren cs (depth + 1)
    if childrenLines.isEmpty then line else line ++ '\n' :: childrenLines

/-- `node.children.map(child => exportMindMap(child, depth + 1)).join('\n')`. -/
def exportChildren : List MMNode → Nat → List Char
  | [], _ => []
  | [c], d => exportMindMap c d
  | c :: c' :: cs, d => exportMindMap c d ++ '\n' :: exportChildren (c' :: cs) d
end

-- ==================================================================
-- parseMindMap  (src/utils/import.ts lines 8–80)
-- ==================================================================

/-- The character class `\s` of the parser's regexes and the whitespace set
of `String.prototype.trim`, restricted to ASCII (JS additionally treats
` ` and other Unicode space characters as whitespace; none occur in
this development). -/
def jsIsSpace (c : Char) : Bool :=
  c = ' ' || c = '\t' || c = '\n' || c = '\r' || c = '\x0b' || c = '\x0c'

/-- `String.prototype.trim`. -/
def jsTrim (s : List Char) : List Char :=
  ((s.dropWhile jsIsSpace).reverse.dropWhile jsIsSpace).reverse

/-- `text.split('\n')`. -/
def splitLines : List Char → List (List Char)
  | [] => [[]]
  | c :: cs =>
    if c = '\n' then [] :: splitLines cs
    else
      match splitLines cs with
      | l :: ls => (c :: l) :: ls
      | [] => [[c]]  -- unreachable: `splitLines` never returns `[]`

/-- One parsed line: computed depth and label text. -/
structure ParsedLine where
  depth : Nat
  text : List Char
deriving DecidableEq

/-- The bullet characters of `[-+*]`. -/
def bulletChar (c : Char) : Bool := c = '-' || c = '+' || c = '*'

/-- `line.match(/^(\s*)([-+*]\s+)?(.*)/)` plus the depth computation
(import.ts lines 20–32).  The regex matches every string (all groups are
optional or star-quantified), so the `!match` fallback at line 24 is dead
code.  Group 1 takes the maximal leading whitespace run; group 2, when
present, takes one bullet character and the maximal following whitespace
run; `(.*)` takes the rest up to the first line terminator (after
splitting on `'\n'`, only `'\r'` can remain; the astral terminators
U+2028/U+2029 are not modelled).  Depth: each `'\t'` of group 1 is
replaced by two spaces, then `depth = floor(length / 2)`. -/
def parseLine (line : List Char) : ParsedLine :=
  let headerIndent := line.takeWhile jsIsSpace
  let rest := line.dropWhile jsIsSpace
  let content :=
    match rest with
    | [] => []
    | c :: cs =>
      if bulletChar c && (match cs with | [] => false | d :: _ => jsIsSpace d) then
        cs.dropWhile jsIsSpace
      else rest
  let content := content.takeWhile (fun c => !(c = '\n' || c = '\r'))
  let tabExpanded := headerIndent.foldr
    (fun c acc => if c = '\t' then ' ' :: ' ' :: acc else c :: acc) []
  { depth := tabExpanded.length / 2, text := content }

/-- A stack entry of the tree-building loop.  The source pushes
`{node, depth}` where `node` aliases a tree node; we record the node's
child-index path from the root instead (`none` for a node pushed while the
stack was empty — such a node is attached to nothing, so it and anything
attached below it never reach the returned tree). -/
structure BuildEntry where
  path : Option (List Nat)
  depth : Int

/-- `parentWrapper.node.children.push(newNode)`. -/
def appendChildAt (root : MMNode) (p : List Nat) (child : MMNode) : MMNode :=
  updateAt root p (fun n =>
    match n with
    | .mk i t cs e => .mk i t (cs ++ [child]) e)

/-- Number of children of the node at path `p` (the index the freshly
pushed child receives). -/
def childCountAt (root : MMNode) (p : List Nat) : Nat :=
  match getAt root p with
  | some n => n.children.length
  | none => 0

/-- Fresh ids from `uuidv4()`, modelled as a counter rendered to a string
(an injective stream of fresh identifiers). -/
def freshId (k : Nat) : String := toString k

/-- The building loop of `parseMindMap` (import.ts lines 57–77): for each
line, pop the stack while its top's depth is `≥` the line's depth, attach a
new node to the resulting top's node (no attachment when the stack is
empty), and push the new node with the line's depth. -/
def buildLoop : List ParsedLine → MMNode → List BuildEntry → Nat → MMNode
  | [], tree, _, _ => tree
  | pl :: rest, tree, stack, k =>
    let d : Int := pl.depth
    let stack1 := stack.dropWhile (fun e => d ≤ e.depth)
    let newNode : MMNode := .mk (freshId k) pl.text [] none
    match stack1 with
    | [] => buildLoop rest tree ({ path := none, depth := d } :: stack1) (k + 1)
    | e :: _ =>
      match e.path with
      | some p =>
        buildLoop rest (appendChildAt tree p newNode)
          ({ path := some (p ++ [childCountAt tree p]), depth := d } :: stack1) (k + 1)
      | none =>
        buildLoop rest tree ({ path := none, depth := d } :: stack1) (k + 1)

/-- `parseMindMap` (import.ts lines 8–80).  Blank lines are dropped; with
no surviving line a fresh single node `Root` is returned.  When the first
surviving line has depth 0 it becomes the root's text and is consumed,
otherwise a synthetic root with text `Root` is used.  Note the stack
initialization at line 46: `depth: root === lines[0] as any ? 0 : -1`
compares the root NODE against the first line STRING, which is never
equal, so the bottom entry's depth is `-1` in BOTH branches; the `if` at
lines 50–55 leaves it unchanged (its first branch contains only a
comment). -/
def parseMindMap (input : List Char) : MMNode :=
  let lines := (splitLines input).filter (fun l => !(jsTrim l).isEmpty)
  match lines with
  | [] => .mk (freshId 0) "Root".data [] none
  | l0 :: _ =>
    let parsedLines := lines.map parseLine
    let first := parseLine l0
    let root : MMNode :=
      if first.depth = 0 then .mk (freshId 0) first.text [] none
      else .mk (freshId 0) "Root".data [] none
    let startLines := if first.depth = 0 then parsedLines.drop 1 else parsedLines
    buildLoop startLines root [{ path := some [], depth := -1 }] 1

-- ==================================================================
-- The Ctrl/Cmd+Backspace branch of handleKeyDown
-- (MindMapCanvas.tsx lines 74–100)
-- ==================================================================

mutual
/-- `getVisibleNodes` (MindMapCanvas.tsx lines 34–40): depth-first preorder
of the tree, descending into a node's children only when its `isExpanded`
is not explicitly `false`. -/
def getVisibleNodes : MMNode → List MMNode
  | .mk i t cs e =>
    if e = some false then [.mk i t cs e]
    else .mk i t cs e :: getVisibleList cs

def getVisibleList : List MMNode → List MMNode
  | [] => []
  | c :: cs => getVisibleNodes c ++ getVisibleList cs
end

/-- The selection state of `MindMapView`: `selectedIds` (a `Set<string>`,
modelled as a list of ids with membership as the set operations) and
`lastFocusedId`. -/
structure SelectionState where
  selectedIds : List String
  lastFocusedId : String

/-- The backward scan `for (let i = currentIdx - 1; i >= 0; i--)` of
MindMapCanvas.tsx lines 87–93: called with `currentIdx`, it inspects
indices `currentIdx - 1, …, 0` of `visible` in that order and yields the
first id not in `selectedIds`. -/
def findSafeBack (visible : List MMNode) (selectedIds : List String) :
    Nat → Option String
  | 0 => none
  | Nat.succ i =>
    match visible[i]? with
    | some n =>
      if !selectedIds.contains n.id then some n.id
      else findSafeBack visible selectedIds i
    | none => findSafeBack visible selectedIds i

/-- The safe-fallback computation of MindMapCanvas.tsx lines 79–95:
`safeId` starts as the root id; when `lastFocusedId` sits at a positive
index of the visible order, scan backward for the first non-selected id;
when none was found fall back to `visible[0].id` (the visible list always
starts with the root, so it is never empty). -/
def safeFallbackId (root : MMNode) (st : SelectionState) : String :=
  let visible := getVisibleNodes root
  let currentIdx := jsFindIndex (fun n => n.id = st.lastFocusedId) visible
  let found :=
    if 0 < currentIdx then findSafeBack visible st.selectedIds currentIdx.toNat
    else none
  match found with
  | some s => s
  | none => ((visible.head?).map MMNode.id).getD root.id

/-- The Ctrl/Cmd+Backspace (or Delete) branch of `handleKeyDown`
(MindMapCanvas.tsx lines 74–100) as a pure transition on the tree and the
selection state: when the selection is non-empty and does not contain the
root id, compute the safe id, call `removeNodes` with every selected id,
and reset the selection to the singleton safe id. -/
def handleDeleteKey (root : MMNode) (st : SelectionState) :
    MMNode × SelectionState :=
  if !st.selectedIds.isEmpty && !st.selectedIds.contains root.id then
    let safeId := safeFallbackId root st
    (removeNodes root st.selectedIds,
     { selectedIds := [safeId], lastFocusedId := safeId })
  else (root, st)

/-- A concrete all-empty mandala chart. -/
def emptyChart : MandalaChartData :=
  { centerGrid := { id := "g", title := "", cells := fun _ => { id := "c", text := "" } },
    surroundingGrids := fun _ =>
      { id := "s", title := "", cells := fun _ => { id := "c", text := "" } } }

-- ==================================================================
-- C2 — removeNodes with the root id listed
-- ==================================================================

/-- The concrete tree of the spec's removal scenario: a root with children
Child 1 (which has Grandchild 1) and Child 2. -/
def scenarioTree : MMNode :=
  .mk "root" "Root".data
    [.mk "c1" "Child 1".data [.mk "g1" "Grandchild 1".data [] none] none,
     .mk "c2" "Child 2".data [] none] none

-- ==================================================================
-- C1 — insertParent positional contract (code bug)
-- ==================================================================

/-- The tree of the insertParent scenario: root R with children [A, B, C]. -/
def abcTree : MMNode :=
  .mk "r" "R".data
    [.mk "a" "A".data [] none, .mk "b" "B".data [] none,
     .mk "c" "C".data [] none] (some true)

-- ==================================================================
-- C7 — Ctrl/Cmd+Backspace (Delete) transition
-- ==================================================================

/-- Index of the first element satisfying `p`, `none` when there is none. -/
def firstIdxWhere {α : Type} (p : α → Bool) : List α → Option Nat
  | [] => none
  | a :: l => if p a then some 0 else (firstIdxWhere p l).map (fun n => n + 1)

/-- The safe-fallback id as the claim words it: the id of the last node of
the visible-order prefix before `lastFocusedId`'s position that is not in
`selectedIds` (equivalently, the first such id when scanning backward),
falling back to the very first visible node when `lastFocusedId` is absent
or at index 0 or no non-selected id precedes it. -/
def safeSpecId (root : MMNode) (st : SelectionState) : String :=
  let vis := getVisibleNodes root
  match firstIdxWhere (fun n => n.id = st.lastFocusedId) vis with
  | some idx =>
    match ((vis.take idx).reverse).find?
        (fun n => !st.selectedIds.contains n.id) with
    | some x => x.id
    | none => ((vis.head?).map MMNode.id).getD root.id
  | none => ((vis.head?).map MMNode.id).getD root.id

-- ==================================================================
-- Id lists and the characterization of findIdxPath
-- ==================================================================

mutual
/-- All ids occurring in the tree, in depth-first preorder. -/
def idList : MMNode → List String
  | .mk i _ cs _ => i :: idListForest cs

def idListForest : List MMNode → List String
  | [] => []
  | c :: cs => idList c ++ idListForest cs
end

-- ==================================================================
-- C5 — insertChild (addChild)
-- ==================================================================

mutual
/-- The claim's description of `insertChild`, as a recursive transform: at
the (unique) node whose id is `parentId`, append a `New Child` node and
set `isExpanded` to `true`; everywhere else leave the node unchanged. -/
def childSpec (parentId newId : String) : MMNode → MMNode
  | .mk i t cs e =>
    if i = parentId then .mk i t (cs ++ [newChildNode newId]) (some true)
    else .mk i t (childSpecForest parentId newId cs) e

def childSpecForest (parentId newId : String) : List MMNode → List MMNode
  | [] => []
  | c :: cs => childSpec parentId newId c :: childSpecForest parentId newId cs
end

-- ==================================================================
-- C4 — insertSibling (addSibling)
-- ==================================================================

mutual
/-- The claim's description of `insertSibling`, as a recursive transform:
in the child list containing the (unique) node with id `refId`, insert a
`New Node` sibling immediately after it; everything else is unchanged. -/
def siblingSpec (refId newId : String) : MMNode → MMNode
  | .mk i t cs e => .mk i t (siblingSpecForest refId newId cs) e

def siblingSpecForest (refId newId : String) : List MMNode → List MMNode
  | [] => []
  | c :: cs =>
    if c.id = refId then c :: newSiblingNode newId :: cs
    else siblingSpec refId newId c :: siblingSpecForest refId newId cs
end

-- ==================================================================
-- Parser verification infrastructure: rebuilt trees, flattened lines
-- ==================================================================

mutual
/-- The tree the parser rebuilds from the flattened lines of a source
subtree, starting the fresh-id counter at `k`: same texts and child order,
fresh ids in depth-first preorder, no `isExpanded` field. -/
def rebuilt (k : Nat) : MMNode → MMNode
  | .mk _ t cs _ => .mk (freshId k) t (rebuiltForest (k + 1) cs) none

def rebuiltForest (k : Nat) : List MMNode → List MMNode
  | [] => []
  | c :: cs => rebuilt k c :: rebuiltForest (k + c.size) cs
end

mutual
/-- The parsed-line sequence of the export of a subtree at depth `d`. -/
def flatPL (d : Nat) : MMNode → List ParsedLine
  | .mk _ t cs _ => ⟨d, t⟩ :: flatPLForest (d + 1) cs

def flatPLForest (d : Nat) : List MMNode → List ParsedLine
  | [] => []
  | c :: cs => flatPL d c ++ flatPLForest d cs
end

/-- The text line the exporter emits for one parsed line. -/
def lineOf (pl : ParsedLine) : List Char :=
  indentChars pl.depth ++ '-' :: ' ' :: pl.text

/-- A label that survives the parse-export round trip unchanged: non-empty,
not starting with whitespace (so the greedy bullet/indent whitespace runs
do not swallow part of it), and free of line terminators (so it stays on
one line and `(.*)` keeps all of it). -/
def goodTextB : List Char → Bool
  | [] => false
  | c :: cs => !jsIsSpace c && (c :: cs).all (fun d => !(d = '\n' || d = '\r'))

mutual
def allGoodTexts : MMNode → Bool
  | .mk _ t cs _ => goodTextB t && allGoodTextsForest cs

def allGoodTextsForest : List MMNode → Bool
  | [] => true
  | c :: cs => allGoodTexts c && allGoodTextsForest cs
end

/-- `cs ++ l` on the children of one node. -/
def appendKidsAt (l : List MMNode) : MMNode → MMNode
  | .mk i t cs e => .mk i t (cs ++ l) e

/-- Append a whole list of new subtrees at the end of the children of the
node at path `p`. -/
def appendForest (root : MMNode) (p : List Nat) (l : List MMNode) : MMNode :=
  updateAt root p (appendKidsAt l)

/-- A concrete tree with well-behaved labels for the round-trip witness. -/
def roundTree : MMNode :=
  .mk "r" "R".data
    [.mk "x" "Ch1".data [.mk "y" "GC1".data [] none] (some true),
     .mk "z" "Ch2".data [] none] none

/-- The child list of a shape. -/
def MMShape.kidList : MMShape → List MMShape
  | .mk _ cs => cs

/-- A single node whose (non-empty) text contains a newline. -/
def newlineTree : MMNode := .mk "r" ('a' :: '\n' :: 'b' :: []) [] none

-- ==================================================================
-- Infrastructure: induction principles and shape decidability
-- ==================================================================

theorem MMNode.inductionOn {P : MMNode → Prop}
    (h : ∀ i t cs e, (∀ c ∈ cs, P c) → P (.mk i t cs e)) : ∀ n, P n
  | .mk i t cs e => h i t cs e (fun c hc => MMNode.inductionOn h c)
termination_by n => sizeOf n
decreasing_by
  have := List.sizeOf_lt_of_mem hc
  simp only [MMNode.mk.sizeOf_spec]
  omega


-- ==================================================================
-- C10 — mandala mirror-sync invariant
-- ==================================================================

/-- C10: for every grid index `i ≠ 4`, if the text of `centerGrid.cells[i]`
equals the text of `surroundingGrids[i].cells[4]` before an `updateCell`
call, the same equality holds after the call: editing a non-center cell of
the center grid mirrors into the matching surrounding grid's center cell,
and editing a surrounding grid's center cell mirrors back. -/
theorem setCellText_same (cs : Fin 9 → MandalaCell) (i : Fin 9) (t : String) :
    setCellText cs i t i = { cs i with text := t } := by
  simp [setCellText]

theorem setCellText_other (cs : Fin 9 → MandalaCell) (i k : Fin 9) (t : String)
    (h : k ≠ i) : setCellText cs i t k = cs k := by
  simp [setCellText, h]

theorem setGrid_same (gs : Fin 9 → MandalaGridData) (i : Fin 9)
    (g : MandalaGridData) : setGrid gs i g i = g := by
  simp [setGrid]

theorem setGrid_other (gs : Fin 9 → MandalaGridData) (i k : Fin 9)
    (g : MandalaGridData) (h : k ≠ i) : setGrid gs i g k = gs k := by
  simp [setGrid, h]

theorem mandala_mirror_sync (d : MandalaChartData) (gt : GridType)
    (g j : Fin 9) (s : String) (i : Fin 9) (hi : i ≠ 4)
    (h : (d.centerGrid.cells i).text = ((d.surroundingGrids i).cells 4).text) :
    ((updateCell d gt g j s).centerGrid.cells i).text =
      (((updateCell d gt g j s).surroundingGrids i).cells 4).text := by
  cases gt with
  | center =>
    by_cases hj : j = (4 : Fin 9)
    · subst hj
      simp [updateCell, setCellText, setGrid, hi, h]
    · by_cases hij : i = j
      · subst hij
        simp [updateCell, setCellText, setGrid, hj]
      · simp [updateCell, setCellText, setGrid, hj, hij, h]
  | surrounding =>
    by_cases hj : j = (4 : Fin 9)
    · subst hj
      by_cases hig : i = g
      · subst hig
        simp [updateCell, setCellText, setGrid]
      · simp [updateCell, setCellText, setGrid, hig, h]
    · by_cases hig : i = g
      · subst hig
        simp [updateCell, setCellText, setGrid, hj, Ne.symm hj, h]
      · simp [updateCell, setCellText, setGrid, hj, hig, h]

/-- Witness for C10 at a concrete chart, call and index. -/
theorem mandala_mirror_sync_witness :
    ((updateCell emptyChart .center 0 0 "x").centerGrid.cells 1).text =
      (((updateCell emptyChart .center 0 0 "x").surroundingGrids 1).cells 4).text :=
  mandala_mirror_sync emptyChart .center 0 0 "x" 1 (by decide) rfl

-- ==================================================================
-- C9 — blank input yields the minimal Root tree
-- ==================================================================

/-- C9: for every input whose lines are all empty or all-whitespace
(including the empty string), `parseMindMap` returns a single-node tree
with text `Root` and no children. -/
theorem parse_blank_input (input : List Char)
    (h : ∀ l ∈ splitLines input, jsTrim l = []) :
    (parseMindMap input).text = "Root".data ∧
      (parseMindMap input).children = [] := by
  have hf : (splitLines input).filter (fun l => !(jsTrim l).isEmpty) = [] := by
    rw [List.filter_eq_nil]
    intro l hl
    simp [h l hl]
  simp [parseMindMap, hf, MMNode.text, MMNode.children]

/-- Witness for C9 on the input `"  \n\t"`. -/
theorem parse_blank_input_witness :
    (parseMindMap (' ' :: ' ' :: '\n' :: '\t' :: [])).text = "Root".data ∧
      (parseMindMap (' ' :: ' ' :: '\n' :: '\t' :: [])).children = [] :=
  parse_blank_input (' ' :: ' ' :: '\n' :: '\t' :: []) (by decide)

/-- C2 counterexample: `removeNodes(tree, [root.id, child1.id])` does NOT
remove Child 1 — the whole call returns the tree unchanged, and Child 1 is
still present. -/
theorem removeNodes_root_listed_cex :
    removeNodes scenarioTree ["root", "c1"] = scenarioTree ∧
      containsId "c1" (removeNodes scenarioTree ["root", "c1"]) = true :=
  ⟨rfl, rfl⟩

/-- C2 (amended): whenever the root's id occurs in `ids`, `removeNodes`
returns the tree entirely unchanged — the root's presence in the id set
suppresses removal of every listed id, not just of the root. -/
theorem removeNodes_root_listed_noop (t : MMNode) (ids : List String)
    (h : t.id ∈ ids) : removeNodes t ids = t := by
  have hc : ids.contains t.id = true := by
    simp only [List.contains_iff_exists_mem_beq]
    exact ⟨t.id, h, by simp⟩
  rw [removeNodes, if_pos hc]

/-- Witness for the amended C2 on the scenario tree. -/
theorem removeNodes_root_listed_noop_witness :
    removeNodes scenarioTree ["root", "c1"] = scenarioTree :=
  removeNodes_root_listed_noop scenarioTree ["root", "c1"] (by decide)

/-- C1 (evaluation of the code at the failing input): far from producing
root children `[G, B]` with `G.children = [A, C]`, the part_005
`insertParent` removes A and C from the tree and never attaches the new
node G anywhere — the result's root children are `[B]` only.  (App.tsx
lines 256–317 contain the intended algorithm, with the same second pass
run over the ORIGINAL children, together with test cases; part_005 runs
that pass over the already-filtered children.) -/
theorem insertParent_drops_targets :
    insertParent abcTree ["a", "c"] "G".data "g"
      = .mk "r" "R".data [.mk "b" "B".data [] none] (some true) := rfl

-- ==================================================================
-- C8 — stack-empty drop behaviour (code bug)
-- ==================================================================

/-- C8 (evaluation of the code at the failing input): on `"A\nB"` — an
explicit depth-0 root followed by a second depth-0 line — the second line
is NOT dropped: because the stack bottom carries depth `-1` in both
branches (import.ts line 46 compares the root node against a string), the
root entry is never popped, the stack never becomes empty, and `B` is
attached as a child of the root `A`. -/
theorem parse_second_depth0_attached :
    parseMindMap ('A' :: '\n' :: 'B' :: [])
      = .mk (freshId 0) ['A'] [.mk (freshId 1) ['B'] [] none] none := rfl

theorem jsFindIndex_of_none {α : Type} (p : α → Bool) :
    ∀ l : List α, firstIdxWhere p l = none → jsFindIndex p l = -1 := by
  intro l
  induction l with
  | nil => intro _; rfl
  | cons a l ih =>
    intro h
    rw [firstIdxWhere] at h
    by_cases hp : p a
    · simp [hp] at h
    · simp only [hp, Bool.false_eq_true, if_false] at h
      have hl : firstIdxWhere p l = none := by
        cases hfi : firstIdxWhere p l with
        | none => rfl
        | some n => rw [hfi] at h; simp at h
      simp [jsFindIndex, hp, ih hl]

theorem jsFindIndex_of_some {α : Type} (p : α → Bool) :
    ∀ (l : List α) (n : Nat), firstIdxWhere p l = some n → jsFindIndex p l = n := by
  intro l
  induction l with
  | nil => intro n h; simp [firstIdxWhere] at h
  | cons a l ih =>
    intro n h
    rw [firstIdxWhere] at h
    by_cases hp : p a
    · rw [if_pos hp] at h
      have hn : n = 0 := by
        cases h; rfl
      subst hn
      simp [jsFindIndex, hp]
    · simp only [hp, Bool.false_eq_true, if_false] at h
      cases hfi : firstIdxWhere p l with
      | none => rw [hfi] at h; simp at h
      | some m =>
        rw [hfi] at h
        simp at h
        have hm := ih m hfi
        have hn : n = m + 1 := by omega
        subst hn
        simp only [jsFindIndex, hp, Bool.false_eq_true, if_false, hm]
        rw [if_neg (by omega : ¬((m : Int) = -1))]
        omega

theorem firstIdxWhere_lt_length {α : Type} (p : α → Bool) :
    ∀ (l : List α) (n : Nat), firstIdxWhere p l = some n → n < l.length := by
  intro l
  induction l with
  | nil => intro n h; simp [firstIdxWhere] at h
  | cons a l ih =>
    intro n h
    rw [firstIdxWhere] at h
    by_cases hp : p a
    · rw [if_pos hp] at h
      cases h
      simp
    · simp only [hp, Bool.false_eq_true, if_false] at h
      cases hfi : firstIdxWhere p l with
      | none => rw [hfi] at h; simp at h
      | some m =>
        rw [hfi] at h
        simp at h
        have := ih m hfi
        have hn : n = m + 1 := by omega
        subst hn
        simp only [List.length_cons]
        omega

theorem findSafeBack_eq_find (visible : List MMNode) (sel : List String) :
    ∀ m, m ≤ visible.length →
      findSafeBack visible sel m =
        (((visible.take m).reverse).find?
          (fun n => !sel.contains n.id)).map MMNode.id := by
  intro m
  induction m with
  | zero => intro _; simp [findSafeBack]
  | succ m ih =>
    intro hm
    have hmlt : m < visible.length := by omega
    have hget : visible[m]? = some visible[m] := List.getElem?_eq_getElem hmlt
    have htake : visible.take (m + 1) = visible.take m ++ [visible[m]] := by
      rw [List.take_succ, hget]
      rfl
    rw [htake]
    simp only [findSafeBack, hget, List.reverse_append, List.reverse_cons,
      List.reverse_nil, List.nil_append, List.singleton_append]
    by_cases hp : visible[m].id ∈ sel
    · rw [List.find?_cons_of_neg _ (by simp [hp]), if_neg (by simp [hp])]
      exact ih (by omega)
    · rw [List.find?_cons_of_pos _ (by simp [hp]), if_pos (by simp [hp])]
      rfl

theorem safeFallbackId_eq_spec (root : MMNode) (st : SelectionState) :
    safeFallbackId root st = safeSpecId root st := by
  simp only [safeFallbackId, safeSpecId]
  cases hfi : firstIdxWhere (fun n => n.id = st.lastFocusedId)
      (getVisibleNodes root) with
  | none =>
    rw [jsFindIndex_of_none _ _ hfi]
    norm_num
  | some idx =>
    rw [jsFindIndex_of_some _ _ _ hfi]
    dsimp only
    have hlt := firstIdxWhere_lt_length _ _ _ hfi
    by_cases hpos : 0 < idx
    · rw [if_pos (by exact_mod_cast hpos)]
      have htn : ((idx : Int)).toNat = idx := by omega
      rw [htn, findSafeBack_eq_find _ _ idx (le_of_lt hlt)]
      generalize ((getVisibleNodes root).take idx).reverse.find?
          (fun n => !st.selectedIds.contains n.id) = o
      cases o with
      | none => rfl
      | some x => rfl
    · have hz : idx = 0 := by omega
      subst hz
      rw [if_neg (by norm_num)]
      simp

/-- C7: whenever `selectedIds` is non-empty and does not contain the root
id, the Ctrl/Cmd+Backspace (or Delete) branch removes all of `selectedIds`
via `removeNodes` and resets both `selectedIds` and `lastFocusedId` to the
single safe fallback id — the first id before `lastFocusedId`'s position
in the visible order (scanning backward) that is not in `selectedIds`,
falling back to the very first visible node when none is found or
`lastFocusedId` sits at or before index 0. -/
theorem deleteKey_transition (root : MMNode) (st : SelectionState)
    (h1 : st.selectedIds ≠ []) (h2 : root.id ∉ st.selectedIds) :
    handleDeleteKey root st
      = (removeNodes root st.selectedIds,
         { selectedIds := [safeSpecId root st],
           lastFocusedId := safeSpecId root st }) := by
  have he : st.selectedIds.isEmpty = false := by
    cases hsel : st.selectedIds with
    | nil => exact absurd hsel h1
    | cons a l => simp [List.isEmpty]
  have hc : st.selectedIds.contains root.id = false := by
    simp [h2]
  rw [handleDeleteKey, if_pos (by simp [he, hc, h2]), safeFallbackId_eq_spec]

/-- Witness for C7: deleting the selection `{b, c}` from the tree
`R[A,B,C]` while focused on `c` falls back to `a`. -/
theorem deleteKey_transition_witness :
    handleDeleteKey abcTree ⟨["b", "c"], "c"⟩
      = (removeNodes abcTree ["b", "c"],
         { selectedIds := [safeSpecId abcTree ⟨["b", "c"], "c"⟩],
           lastFocusedId := safeSpecId abcTree ⟨["b", "c"], "c"⟩ }) :=
  deleteKey_transition abcTree ⟨["b", "c"], "c"⟩ (by decide) (by decide)

theorem mem_idListForest {x : String} :
    ∀ {cs : List MMNode} {c : MMNode}, c ∈ cs → x ∈ idList c →
      x ∈ idListForest cs := by
  intro cs
  induction cs with
  | nil => intro c h; simp at h
  | cons c0 cs ih =>
    intro c h hx
    rw [List.mem_cons] at h
    cases h with
    | inl h => subst h; simp [idListForest, hx]
    | inr h => simp [idListForest, ih h hx]

theorem containsIdList_iff_mem (x : String) :
    ∀ (cs : List MMNode),
      (∀ c ∈ cs, (containsId x c = true ↔ x ∈ idList c)) →
      (containsIdList x cs = true ↔ x ∈ idListForest cs) := by
  intro cs
  induction cs with
  | nil => intro _; simp [containsIdList, idListForest]
  | cons c cs ih =>
    intro h
    simp only [containsIdList, idListForest, Bool.or_eq_true, List.mem_append]
    rw [h c (by simp), ih (fun c' hc' => h c' (by simp [hc']))]

theorem containsId_iff_mem (x : String) :
    ∀ n : MMNode, containsId x n = true ↔ x ∈ idList n := by
  intro n
  induction n using MMNode.inductionOn with
  | h i t cs e ih =>
    simp only [containsId, idList, Bool.or_eq_true, List.mem_cons,
      decide_eq_true_eq]
    rw [containsIdList_iff_mem x cs ih]
    constructor
    · rintro (rfl | hm)
      · exact Or.inl rfl
      · exact Or.inr hm
    · rintro (rfl | hm)
      · exact Or.inl rfl
      · exact Or.inr hm

theorem findIdxPathList_none_iff (x : String) :
    ∀ (cs : List MMNode) (k : Nat),
      (∀ c ∈ cs, (findIdxPath x c = none ↔ containsId x c = false)) →
      (findIdxPathList x cs k = none ↔ containsIdList x cs = false) := by
  intro cs
  induction cs with
  | nil => intro k _; simp [findIdxPathList, containsIdList]
  | cons c cs ih =>
    intro k h
    simp only [findIdxPathList, containsIdList, Bool.or_eq_false_iff]
    cases hc : findIdxPath x c with
    | some q =>
      simp only [reduceCtorEq, false_iff, not_and]
      intro hcc
      exact absurd ((h c (by simp)).mpr hcc) (by simp [hc])
    | none =>
      rw [ih (k + 1) (fun c' hc' => h c' (by simp [hc']))]
      have := (h c (by simp)).mp hc
      simp [this]

theorem findIdxPath_none_iff (x : String) :
    ∀ n : MMNode, findIdxPath x n = none ↔ containsId x n = false := by
  intro n
  induction n using MMNode.inductionOn with
  | h i t cs e ih =>
    simp only [findIdxPath, containsId]
    by_cases hix : i = x
    · simp [hix]
    · simp only [hix, Bool.false_eq_true, if_false, decide_eq_true_eq,
        Bool.or_eq_false_iff]
      rw [findIdxPathList_none_iff x cs 0 ih]
      simp [hix]

/-- `findIdxPath` returns `some []` exactly at a node whose own id is the
target (the forest search only ever returns paths with a head index). -/
theorem findIdxPathList_some_shape (x : String) :
    ∀ (cs : List MMNode) (k : Nat) (p : List Nat),
      findIdxPathList x cs k = some p → ∃ m p', p = m :: p' := by
  intro cs
  induction cs with
  | nil => intro k p h; simp [findIdxPathList] at h
  | cons c cs ih =>
    intro k p h
    simp only [findIdxPathList] at h
    cases hc : findIdxPath x c with
    | some q =>
      rw [hc] at h
      exact ⟨k, q, by cases h; rfl⟩
    | none =>
      rw [hc] at h
      exact ih (k + 1) p h

theorem findIdxPath_some_nil_iff (x : String) (n : MMNode) :
    findIdxPath x n = some [] ↔ n.id = x := by
  cases n with
  | mk i t cs e =>
    simp only [findIdxPath, MMNode.id]
    by_cases hix : i = x
    · simp [hix]
    · simp only [hix, Bool.false_eq_true, if_false, iff_false]
      intro h
      obtain ⟨m, p', hp⟩ := findIdxPathList_some_shape x cs 0 [] h
      simp at hp

/-- Characterization of a successful forest search: the result is
`(k + m) :: p'` where `m` is the position of the first child containing the
target, that child's own search yields `p'`, and every earlier child does
not contain the target. -/
theorem findIdxPathList_some_spec (x : String) :
    ∀ (cs : List MMNode) (k : Nat) (p : List Nat),
      findIdxPathList x cs k = some p →
      ∃ m p', p = (k + m) :: p' ∧
        (∃ c, cs[m]? = some c ∧ findIdxPath x c = some p') ∧
        ∀ j, j < m → ∀ cj, cs[j]? = some cj → containsId x cj = false := by
  intro cs
  induction cs with
  | nil => intro k p h; simp [findIdxPathList] at h
  | cons c cs ih =>
    intro k p h
    simp only [findIdxPathList] at h
    cases hc : findIdxPath x c with
    | some q =>
      rw [hc] at h
      refine ⟨0, q, ?_, ⟨c, by simp, hc⟩, ?_⟩
      · cases h; simp
      · intro j hj; omega
    | none =>
      rw [hc] at h
      obtain ⟨m, p', hp, ⟨c', hg, hf⟩, hfirst⟩ := ih (k + 1) p h
      refine ⟨m + 1, p', ?_, ⟨c', by simpa using hg, hf⟩, ?_⟩
      · rw [hp]
        congr 1
        omega
      · intro j hj cj hgj
        cases j with
        | zero =>
          simp only [List.getElem?_cons_zero, Option.some.injEq] at hgj
          subst hgj
          exact (findIdxPath_none_iff x c).mp hc
        | succ j' =>
          simp only [List.getElem?_cons_succ] at hgj
          exact hfirst j' (by omega) cj hgj

theorem containsIdList_false_mem {x : String} :
    ∀ {cs : List MMNode}, containsIdList x cs = false →
      ∀ c ∈ cs, containsId x c = false := by
  intro cs
  induction cs with
  | nil => intro _ c h; simp at h
  | cons c0 cs ih =>
    intro h c hc
    simp only [containsIdList, Bool.or_eq_false_iff] at h
    rw [List.mem_cons] at hc
    cases hc with
    | inl hc => subst hc; exact h.1
    | inr hc => exact ih h.2 c hc

theorem childSpec_of_not_contains (x nid : String) :
    ∀ n : MMNode, containsId x n = false → childSpec x nid n = n := by
  intro n
  induction n using MMNode.inductionOn with
  | h i t cs e ih =>
    intro hc
    simp only [containsId, Bool.or_eq_false_iff, decide_eq_false_iff_not] at hc
    rw [childSpec, if_neg hc.1]
    have hall := containsIdList_false_mem hc.2
    have : childSpecForest x nid cs = cs := by
      clear hc
      induction cs with
      | nil => rfl
      | cons c0 cs ihl =>
        rw [childSpecForest, ih c0 (by simp) (hall c0 (by simp)),
          ihl (fun c' hc' => ih c' (by simp [hc'])) (fun c' hc' => hall c' (by simp [hc']))]
    rw [this]

theorem childSpecForest_of_not_contains (x nid : String) :
    ∀ cs : List MMNode, (∀ c ∈ cs, containsId x c = false) →
      childSpecForest x nid cs = cs := by
  intro cs
  induction cs with
  | nil => intro _; rfl
  | cons c0 cs ih =>
    intro hall
    rw [childSpecForest, childSpec_of_not_contains x nid c0 (hall c0 (by simp)),
      ih (fun c hc => hall c (by simp [hc]))]

theorem idList_nodup_of_mem_forest :
    ∀ {cs : List MMNode}, (idListForest cs).Nodup →
      ∀ c ∈ cs, (idList c).Nodup := by
  intro cs
  induction cs with
  | nil => intro _ c h; simp at h
  | cons c0 cs ih =>
    intro h c hc
    simp only [idListForest] at h
    rw [List.mem_cons] at hc
    cases hc with
    | inl hc => subst hc; exact h.of_append_left
    | inr hc => exact ih h.of_append_right c hc

theorem not_contains_tail_of_nodup {x : String} {c0 : MMNode} {cs : List MMNode}
    (hnd : (idListForest (c0 :: cs)).Nodup) (hx : containsId x c0 = true) :
    ∀ c ∈ cs, containsId x c = false := by
  intro c hc
  simp only [idListForest] at hnd
  rw [List.nodup_append] at hnd
  have hx0 : x ∈ idList c0 := (containsId_iff_mem x c0).mp hx
  by_contra hcc
  rw [Bool.not_eq_false] at hcc
  have hxc : x ∈ idList c := (containsId_iff_mem x c).mp hcc
  exact hnd.2.2 hx0 (mem_idListForest hc hxc)

theorem updateChildAt_eq_childSpecForest (x nid : String) :
    ∀ (cs : List MMNode) (m : Nat) (c : MMNode) (p' : List Nat),
      cs[m]? = some c →
      findIdxPath x c = some p' →
      (∀ j, j < m → ∀ cj, cs[j]? = some cj → containsId x cj = false) →
      (idListForest cs).Nodup →
      (∀ c' ∈ cs, (idList c').Nodup → ∀ q, findIdxPath x c' = some q →
        updateAt c' q (pushChildAt nid) = childSpec x nid c') →
      updateChildAt cs m (fun c0 => updateAt c0 p' (pushChildAt nid))
        = childSpecForest x nid cs := by
  intro cs
  induction cs with
  | nil => intro m c p' hg; simp at hg
  | cons c0 cs ih =>
    intro m c p' hg hf hfirst hnd hIH
    cases m with
    | zero =>
      simp only [List.getElem?_cons_zero, Option.some.injEq] at hg
      subst hg
      simp only [updateChildAt, childSpecForest]
      have h1 : updateAt c0 p' (pushChildAt nid) = childSpec x nid c0 :=
        hIH c0 (by simp) (idList_nodup_of_mem_forest hnd c0 (by simp)) p' hf
      have hx0 : containsId x c0 = true := by
        by_contra hcc
        rw [Bool.not_eq_true] at hcc
        rw [(findIdxPath_none_iff x c0).mpr hcc] at hf
        cases hf
      have h2 : childSpecForest x nid cs = cs :=
        childSpecForest_of_not_contains x nid cs
          (not_contains_tail_of_nodup hnd hx0)
      rw [h1, h2]
    | succ j =>
      simp only [updateChildAt, childSpecForest]
      have h0 : containsId x c0 = false := hfirst 0 (by omega) c0 (by simp)
      rw [childSpec_of_not_contains x nid c0 h0]
      congr 1
      apply ih j c p'
      · simpa using hg
      · exact hf
      · intro j' hj' cj hgj
        exact hfirst (j' + 1) (by omega) cj (by simpa using hgj)
      · simp only [idListForest] at hnd
        exact hnd.of_append_right
      · intro c' hc'
        exact hIH c' (by simp [hc'])

theorem updateAt_eq_childSpec (x nid : String) :
    ∀ n : MMNode, (idList n).Nodup → ∀ p, findIdxPath x n = some p →
      updateAt n p (pushChildAt nid) = childSpec x nid n := by
  intro n
  induction n using MMNode.inductionOn with
  | h i t cs e ih =>
    intro hnd p hf
    simp only [findIdxPath] at hf
    by_cases hix : i = x
    · rw [if_pos hix] at hf
      cases hf
      simp only [updateAt, pushChildAt, childSpec, if_pos hix]
    · rw [if_neg hix] at hf
      obtain ⟨m, p', hp, ⟨c, hg, hfc⟩, hfirst⟩ :=
        findIdxPathList_some_spec x cs 0 p hf
      subst hp
      simp only [Nat.zero_add, updateAt, childSpec, if_neg hix]
      congr 1
      apply updateChildAt_eq_childSpecForest x nid cs m c p' hg hfc hfirst
      · simp only [idList] at hnd
        exact hnd.of_cons
      · intro c' hc' hnd' q hq
        exact ih c' hc' hnd' q hq

/-- C5: for every tree with unique ids, `insertChild` (the source's
`addChild`) at an existing id appends one `New Child` node (no children)
at the end of that node's children and sets its `isExpanded` to `true`,
leaving everything else unchanged (it equals the claim-side transform
`childSpec`); and when no node matches the id, the tree is returned
structurally unchanged. -/
theorem insertChild_spec (t : MMNode) (pid nid : String)
    (hnd : (idList t).Nodup) :
    (containsId pid t = true → addChild t pid nid = childSpec pid nid t) ∧
    (containsId pid t = false → addChild t pid nid = t) := by
  constructor
  · intro hct
    cases hfp : findIdxPath pid t with
    | none =>
      rw [(findIdxPath_none_iff pid t).mp hfp] at hct
      cases hct
    | some p =>
      rw [addChild, hfp]
      exact updateAt_eq_childSpec pid nid t hnd p hfp
  · intro hcf
    rw [addChild, (findIdxPath_none_iff pid t).mpr hcf]

/-- Witness for C5 on the concrete tree `R[A,B,C]` with target `b`. -/
theorem insertChild_spec_witness :
    (containsId "b" abcTree = true →
       addChild abcTree "b" "n1" = childSpec "b" "n1" abcTree) ∧
    (containsId "b" abcTree = false → addChild abcTree "b" "n1" = abcTree) :=
  insertChild_spec abcTree "b" "n1" (by decide)

theorem id_ne_of_not_contains {x : String} {n : MMNode}
    (h : containsId x n = false) : n.id ≠ x := by
  cases n with
  | mk i t cs e =>
    simp only [containsId, Bool.or_eq_false_iff, decide_eq_false_iff_not] at h
    simpa [MMNode.id] using h.1

theorem siblingSpec_of_not_contains (x nid : String) :
    ∀ n : MMNode, containsId x n = false → siblingSpec x nid n = n := by
  intro n
  induction n using MMNode.inductionOn with
  | h i t cs e ih =>
    intro hc
    simp only [containsId, Bool.or_eq_false_iff, decide_eq_false_iff_not] at hc
    rw [siblingSpec]
    have hall := containsIdList_false_mem hc.2
    have : siblingSpecForest x nid cs = cs := by
      clear hc
      induction cs with
      | nil => rfl
      | cons c0 cs ihl =>
        rw [siblingSpecForest,
          if_neg (id_ne_of_not_contains (hall c0 (by simp))),
          ih c0 (by simp) (hall c0 (by simp)),
          ihl (fun c' hc' => ih c' (by simp [hc']))
            (fun c' hc' => hall c' (by simp [hc']))]
    rw [this]

theorem siblingSpecForest_of_not_contains (x nid : String) :
    ∀ cs : List MMNode, (∀ c ∈ cs, containsId x c = false) →
      siblingSpecForest x nid cs = cs := by
  intro cs
  induction cs with
  | nil => intro _; rfl
  | cons c0 cs ih =>
    intro hall
    rw [siblingSpecForest, if_neg (id_ne_of_not_contains (hall c0 (by simp))),
      siblingSpec_of_not_contains x nid c0 (hall c0 (by simp)),
      ih (fun c hc => hall c (by simp [hc]))]

theorem jsFindIndex_first {α : Type} (p : α → Bool) :
    ∀ (l : List α) (m : Nat) (c : α), l[m]? = some c → p c = true →
      (∀ j, j < m → ∀ cj, l[j]? = some cj → p cj = false) →
      jsFindIndex p l = m := by
  intro l
  induction l with
  | nil => intro m c hg; simp at hg
  | cons c0 l ih =>
    intro m c hg hp hfirst
    cases m with
    | zero =>
      simp only [List.getElem?_cons_zero, Option.some.injEq] at hg
      subst hg
      simp [jsFindIndex, hp]
    | succ j =>
      have h0 : p c0 = false := hfirst 0 (by omega) c0 (by simp)
      have hr : jsFindIndex p l = j := by
        apply ih j c (by simpa using hg) hp
        intro j' hj' cj hgj
        exact hfirst (j' + 1) (by omega) cj (by simpa using hgj)
      simp only [jsFindIndex, h0, Bool.false_eq_true, if_false, hr]
      rw [if_neg (by omega : ¬((j : Int) = -1))]
      omega

theorem jsSpliceInsert_nat {α : Type} (l : List α) (m : Nat) (x : α)
    (hm : m < l.length) :
    jsSpliceInsert l ((m : Int) + 1) x = l.take (m + 1) ++ x :: l.drop (m + 1) := by
  have h1 : (min (max ((m : Int) + 1) 0) (l.length : Int)).toNat = m + 1 := by
    omega
  simp only [jsSpliceInsert, h1]

theorem siblingSpecForest_splice (x nid : String) :
    ∀ (cs : List MMNode) (m : Nat) (c : MMNode),
      cs[m]? = some c → c.id = x →
      (∀ j, j < m → ∀ cj, cs[j]? = some cj → containsId x cj = false) →
      siblingSpecForest x nid cs
        = cs.take (m + 1) ++ newSiblingNode nid :: cs.drop (m + 1) := by
  intro cs
  induction cs with
  | nil => intro m c hg; simp at hg
  | cons c0 cs ih =>
    intro m c hg hcx hfirst
    cases m with
    | zero =>
      simp only [List.getElem?_cons_zero, Option.some.injEq] at hg
      subst hg
      rw [siblingSpecForest, if_pos hcx]
      simp
    | succ j =>
      have h0 : containsId x c0 = false := hfirst 0 (by omega) c0 (by simp)
      rw [siblingSpecForest, if_neg (id_ne_of_not_contains h0),
        siblingSpec_of_not_contains x nid c0 h0]
      simp only [List.take_succ_cons, List.drop_succ_cons, List.cons_append,
        List.cons.injEq, true_and]
      apply ih j c (by simpa using hg) hcx
      intro j' hj' cj hgj
      exact hfirst (j' + 1) (by omega) cj (by simpa using hgj)

theorem updateChildAt_eq_siblingSpecForest (x nid : String) :
    ∀ (cs : List MMNode) (m : Nat) (c : MMNode) (p' : List Nat),
      cs[m]? = some c →
      findIdxPath x c = some p' →
      c.id ≠ x →
      (∀ j, j < m → ∀ cj, cs[j]? = some cj → containsId x cj = false) →
      (idListForest cs).Nodup →
      (∀ c' ∈ cs, (idList c').Nodup → c'.id ≠ x → ∀ q, findIdxPath x c' = some q →
        updateAt c' q.dropLast (spliceSiblingAt x nid) = siblingSpec x nid c') →
      updateChildAt cs m (fun c0 => updateAt c0 p'.dropLast (spliceSiblingAt x nid))
        = siblingSpecForest x nid cs := by
  intro cs
  induction cs with
  | nil => intro m c p' hg; simp at hg
  | cons c0 cs ih =>
    intro m c p' hg hf hcx hfirst hnd hIH
    cases m with
    | zero =>
      simp only [List.getElem?_cons_zero, Option.some.injEq] at hg
      subst hg
      simp only [updateChildAt, siblingSpecForest, if_neg hcx]
      have h1 : updateAt c0 p'.dropLast (spliceSiblingAt x nid)
          = siblingSpec x nid c0 :=
        hIH c0 (by simp) (idList_nodup_of_mem_forest hnd c0 (by simp)) hcx p' hf
      have hx0 : containsId x c0 = true := by
        by_contra hcc
        rw [Bool.not_eq_true] at hcc
        rw [(findIdxPath_none_iff x c0).mpr hcc] at hf
        cases hf
      have h2 : siblingSpecForest x nid cs = cs :=
        siblingSpecForest_of_not_contains x nid cs
          (not_contains_tail_of_nodup hnd hx0)
      rw [h1, h2]
    | succ j =>
      have h0 : containsId x c0 = false := hfirst 0 (by omega) c0 (by simp)
      simp only [updateChildAt, siblingSpecForest,
        if_neg (id_ne_of_not_contains h0),
        siblingSpec_of_not_contains x nid c0 h0]
      congr 1
      apply ih j c p' (by simpa using hg) hf hcx
      · intro j' hj' cj hgj
        exact hfirst (j' + 1) (by omega) cj (by simpa using hgj)
      · simp only [idListForest] at hnd
        exact hnd.of_append_right
      · intro c' hc'
        exact hIH c' (by simp [hc'])

theorem updateAt_eq_siblingSpec (x nid : String) :
    ∀ n : MMNode, (idList n).Nodup → n.id ≠ x → ∀ p, findIdxPath x n = some p →
      p ≠ [] ∧
        updateAt n p.dropLast (spliceSiblingAt x nid) = siblingSpec x nid n := by
  intro n
  induction n using MMNode.inductionOn with
  | h i t cs e ih =>
    intro hnd hne p hf
    simp only [findIdxPath] at hf
    rw [if_neg (by simpa [MMNode.id] using hne)] at hf
    obtain ⟨m, p', hp, ⟨c, hg, hfc⟩, hfirst⟩ :=
      findIdxPathList_some_spec x cs 0 p hf
    subst hp
    refine ⟨by simp, ?_⟩
    have hmlt : m < cs.length := by
      by_contra hge
      rw [List.getElem?_eq_none (by omega)] at hg
      cases hg
    cases hp' : p' with
    | nil =>
      subst hp'
      have hcx : c.id = x := (findIdxPath_some_nil_iff x c).mp hfc
      simp only [Nat.zero_add, List.dropLast_single, updateAt, spliceSiblingAt,
        siblingSpec]
      have hfi : jsFindIndex (fun n => n.id = x) cs = m := by
        apply jsFindIndex_first _ cs m c hg (by simp [hcx])
        intro j hj cj hgj
        simp [id_ne_of_not_contains (hfirst j hj cj hgj)]
      rw [hfi, jsSpliceInsert_nat cs m _ hmlt]
      congr 1
      exact (siblingSpecForest_splice x nid cs m c hg hcx hfirst).symm
    | cons k rest =>
      subst hp'
      have hcx : c.id ≠ x := by
        intro hcc
        have : findIdxPath x c = some [] := by
          cases c with
          | mk ci ct ccs ce =>
            simp only [MMNode.id] at hcc
            simp [findIdxPath, hcc]
        rw [this] at hfc
        cases hfc
      have hdl : ((0 + m) :: k :: rest).dropLast = m :: (k :: rest).dropLast := by
        simp
      rw [hdl]
      simp only [updateAt, siblingSpec]
      congr 1
      apply updateChildAt_eq_siblingSpecForest x nid cs m c (k :: rest) hg hfc hcx
        hfirst
      · simp only [idList] at hnd
        exact hnd.of_cons
      · intro c' hc' hnd' hcx' q hq
        exact (ih c' hc' hnd' hcx' q hq).2

/-- C4: for every tree with unique ids and every existing non-root id `X`,
`insertSibling` (the source's `addSibling`) inserts one `New Node` (no
children) immediately after the node `X` in its parent's child list, and
all other nodes, texts and orderings are unchanged: the result equals the
claim-side transform `siblingSpec`, which splices the new node at position
`i + 1` when `X` sits at position `i`. -/
theorem insertSibling_spec (t : MMNode) (refId nid : String)
    (hnd : (idList t).Nodup) (hroot : refId ≠ t.id)
    (hct : containsId refId t = true) :
    addSibling t refId nid = siblingSpec refId nid t := by
  cases hfp : findIdxPath refId t with
  | none =>
    rw [(findIdxPath_none_iff refId t).mp hfp] at hct
    cases hct
  | some p =>
    obtain ⟨hpne, heq⟩ :=
      updateAt_eq_siblingSpec refId nid t hnd (fun hh => hroot hh.symm) p hfp
    rw [addSibling, if_neg hroot, hfp]
    cases p with
    | nil => exact absurd rfl hpne
    | cons k rest => exact heq

/-- Witness for C4 on the concrete tree `R[A,B,C]` with reference `b`. -/
theorem insertSibling_spec_witness :
    addSibling abcTree "b" "n2" = siblingSpec "b" "n2" abcTree :=
  insertSibling_spec abcTree "b" "n2" (by decide) (by decide) (by decide)

-- updateChildAt and getAt algebra

theorem updateChildAt_getElem_same :
    ∀ (cs : List MMNode) (k : Nat) (g : MMNode → MMNode) (c : MMNode),
      cs[k]? = some c → (updateChildAt cs k g)[k]? = some (g c) := by
  intro cs
  induction cs with
  | nil => intro k g c h; simp at h
  | cons c0 cs ih =>
    intro k g c h
    cases k with
    | zero =>
      simp only [List.getElem?_cons_zero, Option.some.injEq] at h
      subst h
      simp [updateChildAt]
    | succ j =>
      simp only [List.getElem?_cons_succ] at h
      simpa [updateChildAt] using ih j g c h

theorem updateChildAt_getElem_other :
    ∀ (cs : List MMNode) (k : Nat) (g : MMNode → MMNode) (j : Nat), j ≠ k →
      (updateChildAt cs k g)[j]? = cs[j]? := by
  intro cs
  induction cs with
  | nil => intro k g j _; simp [updateChildAt]
  | cons c0 cs ih =>
    intro k g j hjk
    cases k with
    | zero =>
      cases j with
      | zero => exact absurd rfl hjk
      | succ j' => simp [updateChildAt]
    | succ k' =>
      cases j with
      | zero => simp [updateChildAt]
      | succ j' =>
        simp only [updateChildAt, List.getElem?_cons_succ]
        exact ih k' g j' (by omega)

theorem updateChildAt_congr :
    ∀ (cs : List MMNode) (k : Nat) (g g' : MMNode → MMNode),
      (∀ c, cs[k]? = some c → g c = g' c) →
      updateChildAt cs k g = updateChildAt cs k g' := by
  intro cs
  induction cs with
  | nil => intro k g g' _; rfl
  | cons c0 cs ih =>
    intro k g g' h
    cases k with
    | zero => simp [updateChildAt, h c0 (by simp)]
    | succ j =>
      simp only [updateChildAt, List.cons.injEq, true_and]
      exact ih j g g' (fun c hc => h c (by simpa using hc))

theorem updateChildAt_comp :
    ∀ (cs : List MMNode) (k : Nat) (g g' : MMNode → MMNode),
      updateChildAt (updateChildAt cs k g) k g'
        = updateChildAt cs k (fun c => g' (g c)) := by
  intro cs
  induction cs with
  | nil => intro k g g'; rfl
  | cons c0 cs ih =>
    intro k g g'
    cases k with
    | zero => simp [updateChildAt]
    | succ j => simp [updateChildAt, ih]

theorem updateChildAt_id :
    ∀ (cs : List MMNode) (k : Nat) (g : MMNode → MMNode),
      (∀ c, g c = c) → updateChildAt cs k g = cs := by
  intro cs
  induction cs with
  | nil => intro k g _; rfl
  | cons c0 cs ih =>
    intro k g h
    cases k with
    | zero => simp [updateChildAt, h c0]
    | succ j => simp [updateChildAt, ih j g h]

theorem updateChildAt_append_last :
    ∀ (cs : List MMNode) (x : MMNode) (g : MMNode → MMNode),
      updateChildAt (cs ++ [x]) cs.length g = cs ++ [g x] := by
  intro cs
  induction cs with
  | nil => intro x g; rfl
  | cons c0 cs ih => intro x g; simp [updateChildAt, ih]

theorem getAt_append_path :
    ∀ (p q : List Nat) (t : MMNode),
      getAt t (p ++ q)
        = (match getAt t p with
           | some n => getAt n q
           | none => none) := by
  intro p
  induction p with
  | nil => intro q t; simp [getAt]
  | cons k p' ih =>
    intro q t
    cases t with
    | mk i tx cs e =>
      simp only [List.cons_append, getAt, MMNode.children]
      generalize cs[k]? = o
      cases o with
      | none => rfl
      | some c => exact ih q c

theorem appendForest_nil : ∀ (p : List Nat) (t : MMNode), appendForest t p [] = t := by
  intro p
  induction p with
  | nil =>
    intro t
    cases t with
    | mk i tx cs e => simp [appendForest, updateAt, appendKidsAt]
  | cons k p' ih =>
    intro t
    cases t with
    | mk i tx cs e =>
      simp only [appendForest, updateAt]
      rw [updateChildAt_id]
      intro c
      exact ih c

theorem getAt_appendForest_same :
    ∀ (p : List Nat) (t n : MMNode) (l : List MMNode),
      getAt t p = some n →
      getAt (appendForest t p l) p = some (appendKidsAt l n) := by
  intro p
  induction p with
  | nil =>
    intro t n l h
    cases t with
    | mk i tx cs e =>
      simp only [getAt, Option.some.injEq] at h
      subst h
      rfl
  | cons k p' ih =>
    intro t n l h
    cases t with
    | mk i tx cs e =>
      simp only [getAt, MMNode.children] at h
      cases hg : cs[k]? with
      | none => rw [hg] at h; cases h
      | some c =>
        rw [hg] at h
        simp only [appendForest, updateAt, getAt, MMNode.children]
        rw [updateChildAt_getElem_same cs k _ c hg]
        exact ih c n l h

theorem getAt_isSome_appendForest :
    ∀ (q p : List Nat) (t : MMNode) (l : List MMNode),
      (getAt t q).isSome → (getAt (appendForest t p l) q).isSome := by
  intro q
  induction q with
  | nil => intro p t l _; cases hg : getAt (appendForest t p l) [] <;> simp [getAt] at hg ⊢
  | cons j q' ih =>
    intro p t l h
    cases t with
    | mk i tx cs e =>
      simp only [getAt, MMNode.children] at h
      cases hj : cs[j]? with
      | none => rw [hj] at h; simp at h
      | some c =>
        rw [hj] at h
        have hjlt : j < cs.length := by
          by_contra hge
          rw [List.getElem?_eq_none (by omega)] at hj
          cases hj
        cases p with
        | nil =>
          simp only [appendForest, updateAt, appendKidsAt, getAt, MMNode.children]
          rw [List.getElem?_append, if_pos hjlt, hj]
          exact h
        | cons k p' =>
          simp only [appendForest, updateAt, getAt, MMNode.children]
          by_cases hjk : j = k
          · subst hjk
            rw [updateChildAt_getElem_same cs j _ c hj]
            exact ih p' c l h
          · rw [updateChildAt_getElem_other cs k _ j hjk, hj]
            exact h

theorem getAt_appendForest_new (t : MMNode) (p : List Nat) (n x : MMNode)
    (h : getAt t p = some n) :
    getAt (appendForest t p [x]) (p ++ [n.children.length]) = some x := by
  rw [getAt_append_path]
  rw [getAt_appendForest_same p t n [x] h]
  cases n with
  | mk i tx cs e =>
    simp only [appendKidsAt, MMNode.children, getAt]
    rw [List.getElem?_concat_length]

theorem appendForest_nest :
    ∀ (p : List Nat) (t n : MMNode) (x : MMNode) (l : List MMNode),
      getAt t p = some n →
      appendForest (appendForest t p [x]) (p ++ [n.children.length]) l
        = appendForest t p [appendKidsAt l x] := by
  intro p
  induction p with
  | nil =>
    intro t n x l h
    cases t with
    | mk i tx cs e =>
      simp only [getAt, Option.some.injEq] at h
      subst h
      simp only [appendForest, updateAt, appendKidsAt, MMNode.children,
        List.nil_append]
      rw [updateChildAt_append_last]
  | cons k p' ih =>
    intro t n x l h
    cases t with
    | mk i tx cs e =>
      simp only [getAt, MMNode.children] at h
      cases hg : cs[k]? with
      | none => rw [hg] at h; cases h
      | some c =>
        rw [hg] at h
        simp only [appendForest, updateAt, List.cons_append]
        rw [updateChildAt_comp]
        apply congrArg (fun l2 => MMNode.mk i tx l2 e)
        apply updateChildAt_congr
        intro c' hc'
        rw [hg] at hc'
        cases hc'
        exact ih c n x l h

theorem appendForest_appendForest :
    ∀ (p : List Nat) (t : MMNode) (a b : List MMNode),
      appendForest (appendForest t p a) p b = appendForest t p (a ++ b) := by
  intro p
  induction p with
  | nil =>
    intro t a b
    cases t with
    | mk i tx cs e => simp [appendForest, updateAt, appendKidsAt]
  | cons k p' ih =>
    intro t a b
    cases t with
    | mk i tx cs e =>
      simp only [appendForest, updateAt]
      rw [updateChildAt_comp]
      apply congrArg (fun l2 => MMNode.mk i tx l2 e)
      apply updateChildAt_congr
      intro c _
      exact ih c a b

theorem sizeList_append :
    ∀ (a b : List MMNode), sizeList (a ++ b) = sizeList a + sizeList b := by
  intro a
  induction a with
  | nil => intro b; simp [sizeList]
  | cons c a ih => intro b; simp [sizeList, ih]; omega

theorem sizeList_updateChildAt :
    ∀ (cs : List MMNode) (k : Nat) (g : MMNode → MMNode) (c : MMNode),
      cs[k]? = some c →
      sizeList (updateChildAt cs k g) + c.size = sizeList cs + (g c).size := by
  intro cs
  induction cs with
  | nil => intro k g c h; simp at h
  | cons c0 cs ih =>
    intro k g c h
    cases k with
    | zero =>
      simp only [List.getElem?_cons_zero, Option.some.injEq] at h
      subst h
      simp [updateChildAt, sizeList]
      omega
    | succ j =>
      simp only [List.getElem?_cons_succ] at h
      simp only [updateChildAt, sizeList]
      have := ih j g c h
      omega

theorem size_appendForest :
    ∀ (p : List Nat) (t n : MMNode) (l : List MMNode),
      getAt t p = some n →
      (appendForest t p l).size = t.size + sizeList l := by
  intro p
  induction p with
  | nil =>
    intro t n l h
    cases t with
    | mk i tx cs e =>
      simp [appendForest, updateAt, appendKidsAt, MMNode.size, sizeList_append]
      omega
  | cons k p' ih =>
    intro t n l h
    cases t with
    | mk i tx cs e =>
      simp only [getAt, MMNode.children] at h
      cases hg : cs[k]? with
      | none => rw [hg] at h; cases h
      | some c =>
        rw [hg] at h
        simp only [appendForest, updateAt, MMNode.size]
        have h1 : sizeList (updateChildAt cs k
              (fun c0 => updateAt c0 p' (appendKidsAt l))) + c.size
            = sizeList cs + (updateAt c p' (appendKidsAt l)).size :=
          sizeList_updateChildAt cs k _ c hg
        have h2 : (updateAt c p' (appendKidsAt l)).size = c.size + sizeList l :=
          ih c n l h
        omega

theorem text_updateAt_cons (t : MMNode) (k : Nat) (p : List Nat)
    (f : MMNode → MMNode) : (updateAt t (k :: p) f).text = t.text := by
  cases t with
  | mk i tx cs e => rfl

theorem text_appendForest (t : MMNode) (p : List Nat) (l : List MMNode) :
    (appendForest t p l).text = t.text := by
  cases p with
  | nil =>
    cases t with
    | mk i tx cs e => rfl
  | cons k p' => exact text_updateAt_cons t k p' _

-- splitLines / trim / parseLine lemmas

theorem splitLines_ne_nil : ∀ s : List Char, splitLines s ≠ [] := by
  intro s
  induction s with
  | nil => simp [splitLines]
  | cons c cs ih =>
    rw [splitLines]
    by_cases hc : c = '\n'
    · simp [hc]
    · simp only [hc, if_false]
      cases hs : splitLines cs with
      | nil => exact absurd hs ih
      | cons l ls => simp

theorem splitLines_cons_newline (r : List Char) :
    splitLines ('\n' :: r) = [] :: splitLines r := by
  rw [splitLines, if_pos rfl]

theorem splitLines_cons_other (c : Char) (r : List Char) (h : c ≠ '\n') :
    splitLines (c :: r)
      = (match splitLines r with
         | l :: ls => (c :: l) :: ls
         | [] => [[c]]) := by
  rw [splitLines, if_neg h]

theorem splitLines_append_newline :
    ∀ (a b : List Char), splitLines (a ++ '\n' :: b) = splitLines a ++ splitLines b := by
  intro a
  induction a with
  | nil => intro b; simp [splitLines_cons_newline, splitLines]
  | cons c a' ih =>
    intro b
    by_cases hc : c = '\n'
    · subst hc
      rw [List.cons_append, splitLines_cons_newline (a' ++ '\n' :: b), ih b,
        splitLines_cons_newline a']
      rfl
    · rw [List.cons_append, splitLines_cons_other c _ hc,
        splitLines_cons_other c a' hc, ih b]
      cases hs : splitLines a' with
      | nil => exact absurd hs (splitLines_ne_nil a')
      | cons l ls => rfl

theorem splitLines_no_newline :
    ∀ a : List Char, '\n' ∉ a → splitLines a = [a] := by
  intro a
  induction a with
  | nil => intro _; rfl
  | cons c a' ih =>
    intro h
    rw [List.mem_cons, not_or] at h
    rw [splitLines, if_neg (fun hh => h.1 hh.symm), ih h.2]

theorem exportMindMap_ne_nil : ∀ (n : MMNode) (d : Nat), exportMindMap n d ≠ [] := by
  intro n d
  cases n with
  | mk i t cs e =>
    rw [exportMindMap]
    split
    · simp
    · simp

theorem exportChildren_ne_nil :
    ∀ (cs : List MMNode) (d : Nat), cs ≠ [] → exportChildren cs d ≠ [] := by
  intro cs d h
  match cs with
  | [c] => exact exportMindMap_ne_nil c d
  | c :: c' :: cs' =>
    rw [exportChildren]
    simp

theorem goodTextB_no_newline {t : List Char} (h : goodTextB t = true) :
    '\n' ∉ t := by
  cases t with
  | nil => simp
  | cons c cs =>
    simp only [goodTextB, Bool.and_eq_true, List.all_eq_true] at h
    intro hm
    have := h.2 '\n' hm
    simp at this

theorem newline_not_mem_lineOf {pl : ParsedLine} (h : goodTextB pl.text = true) :
    '\n' ∉ lineOf pl := by
  intro hm
  simp only [lineOf, indentChars, List.mem_append, List.mem_cons] at hm
  rcases hm with hm | hm | hm | hm
  · rw [List.mem_replicate] at hm
    exact absurd hm.2 (by decide)
  · exact absurd hm (by decide)
  · exact absurd hm (by decide)
  · exact absurd hm (goodTextB_no_newline h)

theorem splitLines_exportChildren_aux :
    ∀ (cs : List MMNode) (d : Nat),
      (∀ c ∈ cs, ∀ d', allGoodTexts c = true →
        splitLines (exportMindMap c d') = (flatPL d' c).map lineOf) →
      allGoodTextsForest cs = true → cs ≠ [] →
      splitLines (exportChildren cs d) = (flatPLForest d cs).map lineOf := by
  intro cs
  induction cs with
  | nil => intro d _ _ h; exact absurd rfl h
  | cons c cs' ih =>
    intro d helem hgood _
    simp only [allGoodTextsForest, Bool.and_eq_true] at hgood
    cases cs' with
    | nil =>
      simp only [exportChildren, flatPLForest, List.append_nil]
      exact helem c (by simp) d hgood.1
    | cons c' cs'' =>
      rw [exportChildren, splitLines_append_newline,
        helem c (by simp) d hgood.1,
        ih d (fun x hx => helem x (by simp [hx])) hgood.2 (by simp)]
      simp [flatPLForest]

theorem splitLines_exportMindMap :
    ∀ (n : MMNode) (d : Nat), allGoodTexts n = true →
      splitLines (exportMindMap n d) = (flatPL d n).map lineOf := by
  intro n
  induction n using MMNode.inductionOn with
  | h i t cs e ih =>
    intro d hgood
    simp only [allGoodTexts, Bool.and_eq_true] at hgood
    have hline : indentChars d ++ '-' :: ' ' :: t = lineOf ⟨d, t⟩ := rfl
    cases cs with
    | nil =>
      rw [exportMindMap]
      simp only [exportChildren, List.isEmpty_nil, if_true]
      rw [hline, splitLines_no_newline _ (newline_not_mem_lineOf hgood.1)]
      simp [flatPL, flatPLForest]
    | cons c cs' =>
      rw [exportMindMap]
      rw [if_neg (by
        simp only [List.isEmpty_eq_true]
        exact exportChildren_ne_nil (c :: cs') (d + 1) (by simp))]
      rw [hline, splitLines_append_newline,
        splitLines_no_newline _ (newline_not_mem_lineOf hgood.1),
        splitLines_exportChildren_aux (c :: cs') (d + 1)
          (fun x hx d' hg => ih x hx d' hg) hgood.2 (by simp)]
      simp [flatPL]

theorem dropWhile_head_false {p : Char → Bool} :
    ∀ (l : List Char) (x : Char) (xs : List Char),
      l.dropWhile p = x :: xs → p x = false := by
  intro l
  induction l with
  | nil => intro x xs h; simp [List.dropWhile] at h
  | cons c l' ih =>
    intro x xs h
    rw [List.dropWhile_cons] at h
    by_cases hc : p c
    · rw [if_pos hc] at h
      exact ih x xs h
    · rw [if_neg hc] at h
      cases h
      simpa using hc

theorem jsTrim_ne_nil {s : List Char} {c : Char} (hc : c ∈ s)
    (hns : jsIsSpace c = false) : jsTrim s ≠ [] := by
  have h1 : s.dropWhile jsIsSpace ≠ [] := by
    rw [Ne, List.dropWhile_eq_nil_iff]
    push_neg
    exact ⟨c, hc, by simp [hns]⟩
  obtain ⟨x, xs, hx⟩ := List.exists_cons_of_ne_nil h1
  have hpx : jsIsSpace x = false := dropWhile_head_false _ x xs hx
  have h2 : (s.dropWhile jsIsSpace).reverse.dropWhile jsIsSpace ≠ [] := by
    rw [Ne, List.dropWhile_eq_nil_iff]
    push_neg
    exact ⟨x, by simp [hx], by simp [hpx]⟩
  simp only [jsTrim, Ne, List.reverse_eq_nil_iff]
  exact h2

theorem jsTrim_lineOf_not_empty (pl : ParsedLine) :
    (!(jsTrim (lineOf pl)).isEmpty) = true := by
  have : jsTrim (lineOf pl) ≠ [] :=
    jsTrim_ne_nil (c := '-') (by simp [lineOf]) (by decide)
  simpa [List.isEmpty_eq_true] using this

theorem takeWhile_replicate_space :
    ∀ (n : Nat) (x : Char) (xs : List Char), jsIsSpace x = false →
      (List.replicate n ' ' ++ x :: xs).takeWhile jsIsSpace
        = List.replicate n ' ' := by
  intro n
  induction n with
  | zero => intro x xs h; simp [List.takeWhile_cons, h]
  | succ m ih =>
    intro x xs h
    simp only [List.replicate_succ, List.cons_append, List.takeWhile_cons]
    rw [if_pos (by decide)]
    rw [ih x xs h]

theorem dropWhile_replicate_space :
    ∀ (n : Nat) (x : Char) (xs : List Char), jsIsSpace x = false →
      (List.replicate n ' ' ++ x :: xs).dropWhile jsIsSpace = x :: xs := by
  intro n
  induction n with
  | zero => intro x xs h; simp [List.dropWhile_cons, h]
  | succ m ih =>
    intro x xs h
    simp only [List.replicate_succ, List.cons_append, List.dropWhile_cons]
    rw [if_pos (by decide)]
    exact ih x xs h

theorem takeWhile_all_true {p : Char → Bool} :
    ∀ l : List Char, (∀ x ∈ l, p x = true) → l.takeWhile p = l := by
  intro l
  induction l with
  | nil => intro _; rfl
  | cons c l' ih =>
    intro h
    rw [List.takeWhile_cons, if_pos (h c (by simp)), ih (fun x hx => h x (by simp [hx]))]

theorem foldr_no_tab :
    ∀ l : List Char, (∀ c ∈ l, c ≠ '\t') →
      l.foldr (fun c acc => if c = '\t' then ' ' :: ' ' :: acc else c :: acc) []
        = l := by
  intro l
  induction l with
  | nil => intro _; rfl
  | cons c l' ih =>
    intro h
    simp only [List.foldr_cons]
    rw [if_neg (h c (by simp)), ih (fun x hx => h x (by simp [hx]))]

theorem parseLine_lineOf (d : Nat) (t : List Char) (h : goodTextB t = true) :
    parseLine (lineOf ⟨d, t⟩) = ⟨d, t⟩ := by
  obtain ⟨c0, t', rfl⟩ : ∃ c0 t', t = c0 :: t' := by
    cases t with
    | nil => simp [goodTextB] at h
    | cons c0 t' => exact ⟨c0, t', rfl⟩
  simp only [goodTextB, Bool.and_eq_true, List.all_eq_true, Bool.not_eq_true'] at h
  have hterm : ∀ x ∈ c0 :: t', (!(x = '\n' || x = '\r')) = true := by
    intro x hx
    simpa using h.2 x hx
  simp only [parseLine, lineOf, indentChars]
  rw [takeWhile_replicate_space (2 * d) '-' (' ' :: c0 :: t') (by decide),
    dropWhile_replicate_space (2 * d) '-' (' ' :: c0 :: t') (by decide)]
  simp only [bulletChar]
  rw [if_pos (by simp [jsIsSpace])]
  rw [List.dropWhile_cons, if_pos (by decide), List.dropWhile_cons,
    if_neg (by simp [h.1])]
  rw [takeWhile_all_true _ hterm]
  rw [foldr_no_tab _ (by
    intro c hc
    rw [List.mem_replicate] at hc
    rw [hc.2]
    decide)]
  simp only [List.length_replicate]
  congr 1
  omega

theorem flatPLForest_good_aux :
    ∀ (cs : List MMNode) (d : Nat), allGoodTextsForest cs = true →
      (∀ c ∈ cs, ∀ d', allGoodTexts c = true →
        ∀ pl ∈ flatPL d' c, goodTextB pl.text = true) →
      ∀ pl ∈ flatPLForest d cs, goodTextB pl.text = true := by
  intro cs
  induction cs with
  | nil => intro d _ _ pl hpl; simp [flatPLForest] at hpl
  | cons c cs' ih =>
    intro d hg helem pl hpl
    simp only [allGoodTextsForest, Bool.and_eq_true] at hg
    simp only [flatPLForest, List.mem_append] at hpl
    cases hpl with
    | inl hpl => exact helem c (by simp) d hg.1 pl hpl
    | inr hpl =>
      exact ih d hg.2 (fun c' hc' => helem c' (by simp [hc'])) pl hpl

theorem flatPL_good :
    ∀ (n : MMNode) (d : Nat), allGoodTexts n = true →
      ∀ pl ∈ flatPL d n, goodTextB pl.text = true := by
  intro n
  induction n using MMNode.inductionOn with
  | h i t cs e ih =>
    intro d hg pl hpl
    simp only [allGoodTexts, Bool.and_eq_true] at hg
    simp only [flatPL, List.mem_cons] at hpl
    cases hpl with
    | inl hpl => subst hpl; exact hg.1
    | inr hpl =>
      exact flatPLForest_good_aux cs (d + 1) hg.2
        (fun c hc => ih c hc) pl hpl

theorem parsedLines_of_export (T : MMNode) (h : allGoodTexts T = true) :
    ((splitLines (exportMindMap T 0)).filter
        (fun l => !(jsTrim l).isEmpty)).map parseLine
      = flatPL 0 T := by
  rw [splitLines_exportMindMap T 0 h]
  rw [List.filter_eq_self.mpr (by
    intro l hl
    obtain ⟨pl, _, rfl⟩ := List.mem_map.mp hl
    exact jsTrim_lineOf_not_empty pl)]
  rw [List.map_map]
  have : ∀ pl ∈ flatPL 0 T, (parseLine ∘ lineOf) pl = id pl := by
    intro pl hpl
    have hgt := flatPL_good T 0 h pl hpl
    cases pl with
    | mk d t => simpa using parseLine_lineOf d t hgt
  rw [List.map_congr_left this, List.map_id]

theorem shapeList_rebuiltForest_aux :
    ∀ (cs : List MMNode) (k : Nat),
      (∀ c ∈ cs, ∀ k', (rebuilt k' c).shape = c.shape) →
      shapeList (rebuiltForest k cs) = shapeList cs := by
  intro cs
  induction cs with
  | nil => intro _ _; rfl
  | cons c cs' ih =>
    intro k helem
    simp only [rebuiltForest, shapeList]
    rw [helem c (by simp) k, ih (k + c.size) (fun c' hc' => helem c' (by simp [hc']))]

theorem shape_rebuilt :
    ∀ (n : MMNode) (k : Nat), (rebuilt k n).shape = n.shape := by
  intro n
  induction n using MMNode.inductionOn with
  | h i t cs e ih =>
    intro k
    simp only [rebuilt, MMNode.shape]
    rw [shapeList_rebuiltForest_aux cs (k + 1) (fun c hc => ih c hc)]

theorem updateAt_congr :
    ∀ (p : List Nat) (t : MMNode) (g1 g2 : MMNode → MMNode),
      (∀ m, g1 m = g2 m) → updateAt t p g1 = updateAt t p g2 := by
  intro p
  induction p with
  | nil => intro t g1 g2 h; simp only [updateAt]; exact h t
  | cons k p' ih =>
    intro t g1 g2 h
    cases t with
    | mk i tx cs e =>
      simp only [updateAt]
      rw [updateChildAt_congr cs k _ _ (fun c _ => ih c g1 g2 h)]

theorem appendChildAt_eq_appendForest (t : MMNode) (p : List Nat) (c : MMNode) :
    appendChildAt t p c = appendForest t p [c] := by
  apply updateAt_congr
  intro m
  cases m with
  | mk i tx cs e => rfl

theorem size_pos : ∀ c : MMNode, 1 ≤ c.size := by
  intro c
  cases c with
  | mk i t cs e => simp only [MMNode.size]; omega

theorem dropWhile_append_all {α : Type} (p : α → Bool) :
    ∀ (g l : List α), (∀ e ∈ g, p e = true) →
      (g ++ l).dropWhile p = l.dropWhile p := by
  intro g
  induction g with
  | nil => intro l _; rfl
  | cons e g' ih =>
    intro l h
    rw [List.cons_append, List.dropWhile_cons, if_pos (h e (by simp)),
      ih l (fun x hx => h x (by simp [hx]))]

theorem buildLoop_cons_attach (pl : ParsedLine) (rest : List ParsedLine)
    (tree : MMNode) (stack : List BuildEntry) (k : Nat)
    (p : List Nat) (dp : Int) (tl : List BuildEntry)
    (hdrop : stack.dropWhile (fun e => (pl.depth : Int) ≤ e.depth)
      = { path := some p, depth := dp } :: tl) :
    buildLoop (pl :: rest) tree stack k
      = buildLoop rest
          (appendChildAt tree p (.mk (freshId k) pl.text [] none))
          ({ path := some (p ++ [childCountAt tree p]),
             depth := (pl.depth : Int) }
            :: { path := some p, depth := dp } :: tl)
          (k + 1) := by
  rw [buildLoop, hdrop]

theorem buildLoop_flatForest :
    ∀ (N : Nat) (cs : List MMNode), sizeList cs ≤ N →
    ∀ (d : Nat) (tree n : MMNode) (p : List Nat) (dp : Int)
      (g stack : List BuildEntry) (rest : List ParsedLine) (k : Nat),
      getAt tree p = some n →
      dp < (d : Int) →
      (∀ e ∈ g, (d : Int) ≤ e.depth) →
      ∃ g', (∀ e ∈ g', (d : Int) ≤ e.depth) ∧
        buildLoop (flatPLForest d cs ++ rest) tree
            (g ++ { path := some p, depth := dp } :: stack) k
          = buildLoop rest (appendForest tree p (rebuiltForest k cs))
              (g' ++ { path := some p, depth := dp } :: stack)
              (k + sizeList cs) := by
  intro N
  induction N with
  | zero =>
    intro cs hcs d tree n p dp g stack rest k _ _ hg
    cases cs with
    | nil =>
      refine ⟨g, hg, ?_⟩
      simp [flatPLForest, rebuiltForest, appendForest_nil, sizeList]
    | cons c cs' =>
      exfalso
      have := size_pos c
      simp only [sizeList] at hcs
      omega
  | succ N ihN =>
    intro cs hcs d tree n p dp g stack rest k hget hdp hg
    cases cs with
    | nil =>
      refine ⟨g, hg, ?_⟩
      simp [flatPLForest, rebuiltForest, appendForest_nil, sizeList]
    | cons c cs' =>
      cases c with
      | mk ci ct ccs ce =>
        have hszc : sizeList ccs ≤ N := by
          simp only [sizeList, MMNode.size] at hcs
          omega
        have hszr : sizeList cs' ≤ N := by
          have := size_pos (MMNode.mk ci ct ccs ce)
          simp only [sizeList] at hcs
          omega
        have hlines : flatPLForest d (MMNode.mk ci ct ccs ce :: cs') ++ rest
            = (⟨d, ct⟩ : ParsedLine)
              :: (flatPLForest (d + 1) ccs ++ (flatPLForest d cs' ++ rest)) := by
          simp [flatPLForest, flatPL]
        rw [hlines]
        have hdrop : (g ++ { path := some p, depth := dp } :: stack).dropWhile
              (fun e => (((⟨d, ct⟩ : ParsedLine).depth : Int)) ≤ e.depth)
            = { path := some p, depth := dp } :: stack := by
          rw [dropWhile_append_all _ g _ (by
            intro e he
            simpa using hg e he)]
          rw [List.dropWhile_cons, if_neg (by simpa using not_le.mpr hdp)]
        rw [buildLoop_cons_attach _ _ _ _ _ _ _ _ hdrop]
        dsimp only
        rw [appendChildAt_eq_appendForest]
        have hcnt : childCountAt tree p = n.children.length := by
          simp [childCountAt, hget]
        have hget1 : getAt
            (appendForest tree p [MMNode.mk (freshId k) ct [] none])
            (p ++ [childCountAt tree p])
            = some (MMNode.mk (freshId k) ct [] none) := by
          rw [hcnt]
          exact getAt_appendForest_new tree p n _ hget
        obtain ⟨g1, hg1, heq1⟩ := ihN ccs hszc (d + 1)
          (appendForest tree p [MMNode.mk (freshId k) ct [] none])
          (MMNode.mk (freshId k) ct [] none)
          (p ++ [childCountAt tree p]) (d : Int) []
          ({ path := some p, depth := dp } :: stack)
          (flatPLForest d cs' ++ rest) (k + 1)
          hget1 (by exact_mod_cast Nat.lt_succ_self d) (by simp)
        simp only [List.nil_append] at heq1
        rw [heq1]
        have htree2 : appendForest
              (appendForest tree p [MMNode.mk (freshId k) ct [] none])
              (p ++ [childCountAt tree p]) (rebuiltForest (k + 1) ccs)
            = appendForest tree p [rebuilt k (MMNode.mk ci ct ccs ce)] := by
          rw [hcnt, appendForest_nest p tree n _ _ hget]
          simp [appendKidsAt, rebuilt]
        rw [htree2]
        have hget2 : getAt
            (appendForest tree p [rebuilt k (MMNode.mk ci ct ccs ce)]) p
            = some (appendKidsAt [rebuilt k (MMNode.mk ci ct ccs ce)] n) :=
          getAt_appendForest_same p tree n _ hget
        obtain ⟨g2, hg2, heq2⟩ := ihN cs' hszr d
          (appendForest tree p [rebuilt k (MMNode.mk ci ct ccs ce)])
          (appendKidsAt [rebuilt k (MMNode.mk ci ct ccs ce)] n)
          p dp
          (g1 ++ [{ path := some (p ++ [childCountAt tree p]),
                    depth := (d : Int) }])
          stack rest (k + 1 + sizeList ccs)
          hget2 hdp (by
            intro e he
            rw [List.mem_append] at he
            cases he with
            | inl he =>
              have h1 := hg1 e he
              push_cast at h1
              omega
            | inr he =>
              simp only [List.mem_singleton] at he
              subst he
              exact le_refl _)
        rw [List.append_assoc, List.singleton_append] at heq2
        rw [heq2]
        refine ⟨g2, hg2, ?_⟩
        rw [appendForest_appendForest, List.singleton_append]
        have hk1 : k + 1 + sizeList ccs = k + (MMNode.mk ci ct ccs ce).size := by
          simp only [MMNode.size]
          omega
        rw [hk1]
        have hk2 : k + (MMNode.mk ci ct ccs ce).size + sizeList cs'
            = k + sizeList (MMNode.mk ci ct ccs ce :: cs') := by
          simp only [sizeList]
          omega
        rw [hk2]
        simp only [rebuiltForest]

theorem buildLoop_cons_empty (pl : ParsedLine) (rest : List ParsedLine)
    (tree : MMNode) (stack : List BuildEntry) (k : Nat)
    (hdrop : stack.dropWhile (fun e => (pl.depth : Int) ≤ e.depth) = []) :
    buildLoop (pl :: rest) tree stack k
      = buildLoop rest tree
          [{ path := none, depth := (pl.depth : Int) }] (k + 1) := by
  rw [buildLoop, hdrop]

theorem buildLoop_cons_detached (pl : ParsedLine) (rest : List ParsedLine)
    (tree : MMNode) (stack : List BuildEntry) (k : Nat)
    (dp : Int) (tl : List BuildEntry)
    (hdrop : stack.dropWhile (fun e => (pl.depth : Int) ≤ e.depth)
      = { path := none, depth := dp } :: tl) :
    buildLoop (pl :: rest) tree stack k
      = buildLoop rest tree
          ({ path := none, depth := (pl.depth : Int) }
            :: { path := none, depth := dp } :: tl) (k + 1) := by
  rw [buildLoop, hdrop]

theorem text_appendChildAt (t : MMNode) (p : List Nat) (c : MMNode) :
    (appendChildAt t p c).text = t.text := by
  rw [appendChildAt_eq_appendForest]
  exact text_appendForest t p [c]

theorem text_buildLoop :
    ∀ (pls : List ParsedLine) (tree : MMNode) (stack : List BuildEntry)
      (k : Nat), (buildLoop pls tree stack k).text = tree.text := by
  intro pls
  induction pls with
  | nil => intro tree stack k; rw [buildLoop]
  | cons pl rest ih =>
    intro tree stack k
    cases hs : stack.dropWhile (fun e => (pl.depth : Int) ≤ e.depth) with
    | nil => rw [buildLoop_cons_empty pl rest tree stack k hs, ih]
    | cons e tl =>
      cases e with
      | mk pa de =>
        cases pa with
        | none => rw [buildLoop_cons_detached pl rest tree stack k de tl hs, ih]
        | some q =>
          rw [buildLoop_cons_attach pl rest tree stack k q de tl hs, ih,
            text_appendChildAt]

theorem mem_of_mem_dropWhile {α : Type} {p : α → Bool} :
    ∀ {l : List α} {e : α}, e ∈ l.dropWhile p → e ∈ l := by
  intro l
  induction l with
  | nil => intro e h; simpa [List.dropWhile] using h
  | cons a l' ih =>
    intro e h
    rw [List.dropWhile_cons] at h
    by_cases ha : p a
    · rw [if_pos ha] at h
      exact List.mem_cons_of_mem a (ih h)
    · rw [if_neg ha] at h
      exact h

theorem dropWhile_append_last {α : Type} (p : α → Bool) :
    ∀ (front : List α) (last : α), p last = false →
      (front ++ [last]).dropWhile p = front.dropWhile p ++ [last] := by
  intro front
  induction front with
  | nil =>
    intro last h
    simp [List.dropWhile_cons, h]
  | cons a front' ih =>
    intro last h
    rw [List.cons_append, List.dropWhile_cons, List.dropWhile_cons]
    by_cases ha : p a
    · rw [if_pos ha, if_pos ha, ih last h]
    · rw [if_neg ha, if_neg ha, List.cons_append]

theorem buildLoop_size :
    ∀ (pls : List ParsedLine) (tree : MMNode) (stack : List BuildEntry)
      (k : Nat) (front : List BuildEntry) (last : BuildEntry),
      stack = front ++ [last] → last.depth < 0 →
      (∀ e ∈ stack, ∃ q, e.path = some q ∧ (getAt tree q).isSome) →
      (buildLoop pls tree stack k).size = tree.size + pls.length := by
  intro pls
  induction pls with
  | nil =>
    intro tree stack k front last _ _ _
    rw [buildLoop]
    simp
  | cons pl rest ih =>
    intro tree stack k front last hshape hlast hvalid
    subst hshape
    have hplast : (fun e => decide ((pl.depth : Int) ≤ e.depth)) last = false := by
      simp only [decide_eq_false_iff_not, not_le]
      have : (0 : Int) ≤ (pl.depth : Int) := by positivity
      omega
    have hdrop : (front ++ [last]).dropWhile
          (fun e => (pl.depth : Int) ≤ e.depth)
        = front.dropWhile (fun e => (pl.depth : Int) ≤ e.depth) ++ [last] :=
      dropWhile_append_last _ front last hplast
    -- the head of the popped stack always carries a valid path
    have hmem1 : ∀ e ∈ front.dropWhile
          (fun e => (pl.depth : Int) ≤ e.depth) ++ [last],
        e ∈ front ++ [last] := by
      intro e he
      rw [List.mem_append] at he
      cases he with
      | inl he =>
        exact List.mem_append_left _ (mem_of_mem_dropWhile he)
      | inr he => exact List.mem_append_right _ he
    cases hfd : front.dropWhile (fun e => (pl.depth : Int) ≤ e.depth) with
    | nil =>
      rw [hfd] at hdrop hmem1
      simp only [List.nil_append] at hdrop hmem1
      obtain ⟨q, hq, hqv⟩ := hvalid last (by simp)
      have hlast' : last = { path := some q, depth := last.depth } := by
        cases last
        simp only at hq
        rw [hq]
      rw [hlast'] at hdrop ⊢
      rw [buildLoop_cons_attach pl rest tree _ k q last.depth [] hdrop]
      obtain ⟨nq, hnq⟩ := Option.isSome_iff_exists.mp hqv
      have hsz1 : (appendChildAt tree q
            (MMNode.mk (freshId k) pl.text [] none)).size = tree.size + 1 := by
        rw [appendChildAt_eq_appendForest,
          size_appendForest q tree nq _ hnq]
        simp [sizeList, MMNode.size]
      rw [ih _ _ (k + 1)
        [{ path := some (q ++ [childCountAt tree q]), depth := (pl.depth : Int) }]
        { path := some q, depth := last.depth } (by simp) (by simpa using hlast) ?_]
      · rw [hsz1]
        simp only [List.length_cons]
        omega
      · intro e he
        simp only [List.mem_cons, List.mem_singleton] at he
        rcases he with rfl | rfl | h
        · refine ⟨q ++ [childCountAt tree q], rfl, ?_⟩
          have hcnt : childCountAt tree q = nq.children.length := by
            simp [childCountAt, hnq]
          rw [appendChildAt_eq_appendForest, hcnt]
          rw [getAt_appendForest_new tree q nq _ hnq]
          rfl
        · refine ⟨q, rfl, ?_⟩
          rw [appendChildAt_eq_appendForest]
          exact getAt_isSome_appendForest q q tree _ hqv
        · cases h
    | cons e0 tl =>
      rw [hfd] at hdrop hmem1
      have he0mem : e0 ∈ front ++ [last] := hmem1 e0 (by simp)
      obtain ⟨q, hq, hqv⟩ := hvalid e0 he0mem
      have he0' : e0 = { path := some q, depth := e0.depth } := by
        cases e0
        simp only at hq
        rw [hq]
      rw [List.cons_append] at hdrop
      rw [he0'] at hdrop
      rw [buildLoop_cons_attach pl rest tree _ k q e0.depth (tl ++ [last]) hdrop]
      obtain ⟨nq, hnq⟩ := Option.isSome_iff_exists.mp hqv
      have hsz1 : (appendChildAt tree q
            (MMNode.mk (freshId k) pl.text [] none)).size = tree.size + 1 := by
        rw [appendChildAt_eq_appendForest,
          size_appendForest q tree nq _ hnq]
        simp [sizeList, MMNode.size]
      rw [ih _ _ (k + 1)
        ({ path := some (q ++ [childCountAt tree q]), depth := (pl.depth : Int) }
          :: { path := some q, depth := e0.depth } :: tl)
        last (by simp) hlast ?_]
      · rw [hsz1]
        simp only [List.length_cons]
        omega
      · intro e he
        simp only [List.cons_append, List.mem_cons, List.mem_append,
          List.mem_singleton] at he
        rcases he with rfl | rfl | he | rfl | h0
        · refine ⟨q ++ [childCountAt tree q], rfl, ?_⟩
          have hcnt : childCountAt tree q = nq.children.length := by
            simp [childCountAt, hnq]
          rw [appendChildAt_eq_appendForest, hcnt]
          rw [getAt_appendForest_new tree q nq _ hnq]
          rfl
        · refine ⟨q, rfl, ?_⟩
          rw [appendChildAt_eq_appendForest]
          exact getAt_isSome_appendForest q q tree _ hqv
        · have hef : e ∈ front := mem_of_mem_dropWhile (by
            rw [hfd]
            exact List.mem_cons_of_mem _ he)
          obtain ⟨q', hq', hq'v⟩ := hvalid e (List.mem_append_left _ hef)
          refine ⟨q', hq', ?_⟩
          rw [appendChildAt_eq_appendForest]
          exact getAt_isSome_appendForest q' q tree _ hq'v
        · obtain ⟨q', hq', hq'v⟩ := hvalid e (by simp)
          refine ⟨q', hq', ?_⟩
          rw [appendChildAt_eq_appendForest]
          exact getAt_isSome_appendForest q' q tree _ hq'v
        · simp at h0

-- ==================================================================
-- C6 — parser root inference
-- ==================================================================

/-- C6: for every input with at least one surviving (non-blank) line, if
the first surviving line has computed depth 0 then the returned root
carries that line's text and the line is consumed (the result has exactly
one node per surviving line); otherwise the root is the synthetic `Root`
node sitting at depth `-1` in the stack, and every surviving line attaches
as a descendant (the result has one node per line plus the synthetic
root). -/
theorem parse_root_inference (input : List Char) (l0 : List Char)
    (ls : List (List Char))
    (h : (splitLines input).filter (fun l => !(jsTrim l).isEmpty) = l0 :: ls) :
    ((parseLine l0).depth = 0 →
       (parseMindMap input).text = (parseLine l0).text ∧
       (parseMindMap input).size = (l0 :: ls).length) ∧
    ((parseLine l0).depth ≠ 0 →
       (parseMindMap input).text = "Root".data ∧
       (parseMindMap input).size = (l0 :: ls).length + 1) := by
  simp only [parseMindMap, h]
  constructor
  · intro hd0
    rw [if_pos hd0, if_pos hd0]
    constructor
    · rw [text_buildLoop]
      simp [MMNode.text]
    · rw [buildLoop_size _ _ _ 1 [] { path := some [], depth := -1 } (by simp)
        (by norm_num) (by
          intro e he
          simp only [List.mem_singleton] at he
          subst he
          exact ⟨[], rfl, by simp [getAt]⟩)]
      simp only [MMNode.size, sizeList, List.drop_succ_cons, List.drop_zero,
        List.map_cons, List.length_map, List.length_cons]
      omega
  · intro hdn
    rw [if_neg hdn, if_neg hdn]
    constructor
    · rw [text_buildLoop]
      simp [MMNode.text]
    · rw [buildLoop_size _ _ _ 1 [] { path := some [], depth := -1 } (by simp)
        (by norm_num) (by
          intro e he
          simp only [List.mem_singleton] at he
          subst he
          exact ⟨[], rfl, by simp [getAt]⟩)]
      simp only [MMNode.size, sizeList, List.length_map, List.length_cons]
      omega

/-- Witness for C6 on the input `"Root\n  - A"` (explicit depth-0 root). -/
theorem parse_root_inference_witness :
    ((parseLine "Root".data).depth = 0 →
       (parseMindMap "Root\n  - A".data).text = (parseLine "Root".data).text ∧
       (parseMindMap "Root\n  - A".data).size
         = ("Root".data :: ["  - A".data]).length) ∧
    ((parseLine "Root".data).depth ≠ 0 →
       (parseMindMap "Root\n  - A".data).text = "Root".data ∧
       (parseMindMap "Root\n  - A".data).size
         = ("Root".data :: ["  - A".data]).length + 1) :=
  parse_root_inference "Root\n  - A".data "Root".data ["  - A".data] (by decide)

-- ==================================================================
-- C3 — export/import round trip
-- ==================================================================

/-- C3 (amended): for every tree whose node texts are all non-empty, free
of line terminators, and not starting with whitespace, re-parsing the
exported outline yields a structurally equal tree — same shape, texts and
child order — with no synthetic `Root` wrapper (the exported root line has
depth 0 and is consumed as the explicit root). -/
theorem mindmap_round_trip (T : MMNode) (h : allGoodTexts T = true) :
    (parseMindMap (exportMindMap T 0)).shape = T.shape := by
  have hgt : goodTextB T.text = true := by
    cases T with
    | mk i t cs e =>
      simp only [allGoodTexts, Bool.and_eq_true] at h
      exact h.1
  cases T with
  | mk ri rt rcs re =>
    have hfl : (splitLines (exportMindMap (MMNode.mk ri rt rcs re) 0)).filter
          (fun l => !(jsTrim l).isEmpty)
        = (flatPL 0 (MMNode.mk ri rt rcs re)).map lineOf := by
      rw [splitLines_exportMindMap _ 0 h]
      exact List.filter_eq_self.mpr (by
        intro l hl
        obtain ⟨pl, _, rfl⟩ := List.mem_map.mp hl
        exact jsTrim_lineOf_not_empty pl)
    have hmap := parsedLines_of_export (MMNode.mk ri rt rcs re) h
    have hflat : flatPL 0 (MMNode.mk ri rt rcs re)
        = (⟨0, rt⟩ : ParsedLine) :: flatPLForest 1 rcs := rfl
    have hlines : (splitLines (exportMindMap (MMNode.mk ri rt rcs re) 0)).filter
          (fun l => !(jsTrim l).isEmpty)
        = lineOf ⟨0, rt⟩ :: (flatPLForest 1 rcs).map lineOf := by
      rw [hfl, hflat, List.map_cons]
    rw [hlines] at hmap
    have hp0 : parseLine (lineOf ⟨0, rt⟩) = ⟨0, rt⟩ :=
      parseLine_lineOf 0 rt (by simpa [MMNode.text] using hgt)
    have hforest : ((flatPLForest 1 rcs).map lineOf).map parseLine
        = flatPLForest 1 rcs := by
      rw [hflat, List.map_cons, hp0] at hmap
      simp only [List.cons.injEq, true_and] at hmap
      exact hmap
    simp only [parseMindMap, hlines, List.map_cons, hp0]
    simp only [if_true]
    simp only [List.drop_succ_cons, List.drop_zero]
    rw [hforest]
    obtain ⟨g', _, heq⟩ := buildLoop_flatForest (sizeList rcs) rcs le_rfl 1
      (MMNode.mk (freshId 0) rt [] none)
      (MMNode.mk (freshId 0) rt [] none)
      [] (-1) [] [] [] 1 (by simp [getAt]) (by norm_num) (by simp)
    simp only [List.append_nil, List.nil_append] at heq
    rw [heq, buildLoop]
    simp only [appendForest, updateAt, appendKidsAt, List.nil_append,
      MMNode.shape]
    rw [shapeList_rebuiltForest_aux rcs 1 (fun c _ k' => shape_rebuilt c k')]

/-- Witness for C3 (amended) on a three-level concrete tree. -/
theorem mindmap_round_trip_witness :
    (parseMindMap (exportMindMap roundTree 0)).shape = roundTree.shape :=
  mindmap_round_trip roundTree (by decide)

/-- C3 counterexample: the claim as stated — round trip for EVERY tree with
non-empty texts — fails for a single node with text `"a\nb"`: the export
emits two lines, so re-parsing yields a root with one child instead of a
leaf. -/
theorem round_trip_newline_cex :
    newlineTree.text ≠ [] ∧
      (parseMindMap (exportMindMap newlineTree 0)).shape ≠ newlineTree.shape := by
  refine ⟨by decide, ?_⟩
  intro hh
  have hlen : ((parseMindMap (exportMindMap newlineTree 0)).shape.kidList).length
      = (newlineTree.shape.kidList).length :=
    congrArg (fun s => s.kidList.length) hh
  exact absurd hlen (by decide)
